import Mathlib

/-!
# MotionMark native sample: path generator and frame renderer

A shallow embedding of `samples/MotionMark.SkiaNative/motionmark_app.cpp`.

Modelling conventions.
* `int` values are `Int`.  Every integer the program computes stays far inside the 32-bit
  range on the paths modelled here (grid coordinates move by at most 4 per step inside
  `[0,80] x [0,40]`, element counts are at most 120000), so no wrap-around is modelled.
* `std::vector<Element>` is a `List Element`.
* `float`/`double` values are exact rationals (`ℚ`); rounding is not modelled.
* The pseudo-random engine `fRng` is an arbitrary infinite stream of raw draws together with
  a read position.  Every distribution object consumes one raw draw and maps it into its own
  range, so quantifying over all streams covers every sequence of outcomes.
* The canvas is the list of operations issued on it, in order.
-/

namespace MotionMark

/-! ## Constants and data model -/

def kGridWidth : Int := 80

def kGridHeight : Int := 40

abbrev SkColor := Nat

/-- Packs four 8-bit channels the way `SkColorSetARGB` does: `(a << 24) | (r << 16) | (g << 8) | b`. -/
def SkColorSetARGB (a r g b : Nat) : SkColor :=
  a * 2 ^ 24 + r * 2 ^ 16 + g * 2 ^ 8 + b

def SkColorSetRGB (r g b : Nat) : SkColor := SkColorSetARGB 0xFF r g b

def SK_ColorWHITE : SkColor := 0xFFFFFFFF

def kPalette : List SkColor :=
  [ SkColorSetARGB 0xFF 0x10 0x10 0x10,
    SkColorSetARGB 0xFF 0x80 0x80 0x80,
    SkColorSetARGB 0xFF 0xC0 0xC0 0xC0,
    SkColorSetARGB 0xFF 0x10 0x10 0x10,
    SkColorSetARGB 0xFF 0x80 0x80 0x80,
    SkColorSetARGB 0xFF 0xC0 0xC0 0xC0,
    SkColorSetARGB 0xFF 0xE0 0x10 0x40 ]

def kOffsets : List (Int × Int) :=
  [ (-4, 0), (2, 0), (1, -2), (1, 2) ]

structure GridPoint where
  x : Int := 0
  y : Int := 0
  deriving DecidableEq, Repr

inductive SegmentKind where
  | kLine
  | kQuad
  | kCubic
  deriving DecidableEq, Repr

/-- One path segment.  The field `end_` is the source's `end` (a reserved word here). -/
structure Element where
  kind : SegmentKind := SegmentKind.kLine
  start : GridPoint := {}
  control1 : GridPoint := {}
  control2 : GridPoint := {}
  end_ : GridPoint := {}
  color : SkColor := SK_ColorWHITE
  width : ℚ := 1
  split : Bool := false
  deriving DecidableEq

/-! ## Random source -/

/-- The engine `fRng`: an infinite stream of raw draws and the index of the next one. -/
structure Rng where
  stream : Nat → Nat
  pos : Nat

/-- One raw draw; the engine advances by one. -/
def Rng.draw (r : Rng) : Nat × Rng :=
  (r.stream r.pos, { r with pos := r.pos + 1 })

/-- The distribution `std::uniform_int_distribution(lo, hi)` applied to the engine. -/
def uniformIntDist (lo hi : Nat) (r : Rng) : Nat × Rng :=
  let (raw, r1) := r.draw
  (lo + raw % (hi - lo + 1), r1)

/-- The distribution `fUnitDist` (`uniform_real_distribution<float>{0,1}`): a 24-bit dyadic
rational in `[0,1)`. -/
def fUnitDist (r : Rng) : ℚ × Rng :=
  let (raw, r1) := r.draw
  (((raw % 2 ^ 24 : Nat) : ℚ) / 2 ^ 24, r1)

/-- The distribution `std::bernoulli_distribution(p)`: a canonical draw compared with `p`. -/
def bernoulliDist (p : ℚ) (r : Rng) : Bool × Rng :=
  let (u, r1) := fUnitDist r
  (decide (u < p), r1)

/-! ## The layer -/

structure MotionMarkLayer where
  fElements : List Element := []
  fLastGridPoint : GridPoint := { x := kGridWidth / 2, y := kGridHeight / 2 }
  fRng : Rng
  fComplexity : Int := 8
  fWidth : Int := 1280
  fHeight : Int := 720

/-- Translation of `MotionMarkLayer::computeElementCount`. -/
def computeElementCount (complexity : Int) : Int :=
  if complexity < 10 then
    (complexity + 1) * 1000
  else
    let extended := (complexity - 8) * 10000
    min extended 120000

/-- The body of `MotionMarkLayer::randomPoint` after the offset `(dx, dy)` has been drawn: step,
and reflect a coordinate that left the grid. -/
def reflectStep (last : GridPoint) (dx dy : Int) : GridPoint :=
  let x := last.x + dx
  let x := if x < 0 ∨ x > kGridWidth then x - dx * 2 else x
  let y := last.y + dy
  let y := if y < 0 ∨ y > kGridHeight then y - dy * 2 else y
  { x := x, y := y }

/-- Translation of `MotionMarkLayer::randomPoint`: one random-walk step from `last`, reflected
at the grid border.  Returns the point and the advanced engine. -/
def randomPoint (r : Rng) (last : GridPoint) : GridPoint × Rng :=
  let (idx, r1) := uniformIntDist 0 (kOffsets.length - 1) r
  let (dx, dy) := kOffsets.getD idx (0, 0)
  (reflectStep last dx dy, r1)

/-- The stroke width `pow(U, 5) * 20 + 1` of `createRandomElement`, in exact arithmetic. -/
def strokeWidth (u : ℚ) : ℚ := u ^ 5 * 20 + 1

/-- Translation of `MotionMarkLayer::createRandomElement`.  The draws are taken in the source's
order: segment type, first step, further steps for curves, palette index, width, split. -/
def createRandomElement (r : Rng) (last : GridPoint) : Element × Rng :=
  let (segType, r1) := uniformIntDist 0 3 r
  let (next, r2) := randomPoint r1 last
  let element : Element := { start := last }
  let (element, r3) :=
    if segType < 2 then
      ({ element with kind := SegmentKind.kLine, end_ := next }, r2)
    else if segType = 2 then
      let (p2, r2a) := randomPoint r2 next
      ({ element with kind := SegmentKind.kQuad, control1 := next, end_ := p2 }, r2a)
    else
      let (p2, r2a) := randomPoint r2 next
      let (p3, r2b) := randomPoint r2a next
      ({ element with kind := SegmentKind.kCubic, control1 := next, control2 := p2,
                      end_ := p3 }, r2b)
  let (palIdx, r4) := uniformIntDist 0 (kPalette.length - 1) r3
  let (u, r5) := fUnitDist r4
  let (sp, r6) := bernoulliDist (1 / 2) r5
  ({ element with color := kPalette.getD palIdx 0, width := strokeWidth u, split := sp }, r6)

/-- The centre of the grid, `GridPoint{kGridWidth / 2, kGridHeight / 2}`. -/
def gridCentre : GridPoint := { x := kGridWidth / 2, y := kGridHeight / 2 }

/-- The source's `fElements.back()`.  On an empty vector the source's behaviour is undefined;
every call below is guarded so that the vector is non-empty. -/
def back (l : List Element) : Element := l.getLastD {}

/-- The body of the `for (int i = current; i < targetCount; ++i)` loop of `resizeElements`,
run `n` times: synthesise from the cursor, append, advance the cursor. -/
def growLoop : Nat → MotionMarkLayer → MotionMarkLayer
  | 0, s => s
  | n + 1, s =>
    let (element, r1) := createRandomElement s.fRng s.fLastGridPoint
    growLoop n { s with fElements := s.fElements ++ [element],
                        fLastGridPoint := element.end_,
                        fRng := r1 }

/-- Translation of `MotionMarkLayer::resizeElements`.  The loop from `current` to `targetCount`
runs `targetCount - current` times.  The callers only pass `computeElementCount` of a level in
`[0,24]`, so `targetCount` is positive. -/
def resizeElements (s : MotionMarkLayer) (targetCount : Int) : MotionMarkLayer :=
  let current : Int := s.fElements.length
  if targetCount = current then
    s
  else if targetCount < current then
    let elements := s.fElements.take targetCount.toNat
    { s with fElements := elements,
             fLastGridPoint := if targetCount > 0 then (back elements).end_ else gridCentre }
  else
    let s1 : MotionMarkLayer :=
      { s with fLastGridPoint := if current = 0 then gridCentre else (back s.fElements).end_ }
    growLoop (targetCount - current).toNat s1

/-- The source's `std::clamp(v, lo, hi)`. -/
def clamp (v lo hi : Int) : Int :=
  if v < lo then lo else if hi < v then hi else v

/-- Translation of `MotionMarkLayer::setComplexity`. -/
def setComplexity (s : MotionMarkLayer) (complexity : Int) : MotionMarkLayer :=
  let complexity := clamp complexity 0 24
  if complexity = s.fComplexity then
    s
  else
    let s1 := { s with fComplexity := complexity }
    resizeElements s1 (computeElementCount s1.fComplexity)

/-- Translation of the constructor `MotionMarkLayer::MotionMarkLayer`; the clock-derived seed is
the engine passed in. -/
def construct (rng : Rng) : MotionMarkLayer :=
  let s : MotionMarkLayer := { fRng := rng }
  resizeElements s (computeElementCount s.fComplexity)

/-- Translation of `MotionMarkLayer::onResize`. -/
def onResize (s : MotionMarkLayer) (width height : Int) : MotionMarkLayer :=
  { s with fWidth := max 1 width, fHeight := max 1 height }

/-! ## The frame renderer -/

structure SkPoint where
  fX : ℚ
  fY : ℚ
  deriving DecidableEq

/-- The verbs recorded by the `SkPathBuilder`. -/
inductive PathCmd where
  | moveTo (p : SkPoint)
  | lineTo (p : SkPoint)
  | quadTo (c1 p : SkPoint)
  | cubicTo (c1 c2 p : SkPoint)
  deriving DecidableEq

/-- The calls made on the canvas.  A `drawPath` records the detached path together with the
colour and stroke width that `fStrokePaint` carries at the call. -/
inductive CanvasOp where
  | clear (color : SkColor)
  | drawPath (path : List PathCmd) (color : SkColor) (strokeWidth : ℚ)
  deriving DecidableEq

/-- The colour given to `fBackgroundPaint` by the constructor. -/
def backgroundColor : SkColor := SkColorSetRGB 12 16 24

/-- The value of the `float` literal `0.995f`, which is `16693330 / 2^24`. -/
def kSplitToggleThreshold : ℚ := 16693330 / 16777216

/-- Translation of `MotionMarkLayer::toPoint`. -/
def toPoint (pt : GridPoint) (scale offsetX offsetY : ℚ) : SkPoint :=
  let px := offsetX + ((pt.x : ℚ) + 1 / 2) * scale
  let py := offsetY + ((pt.y : ℚ) + 1 / 2) * scale
  { fX := px, fY := py }

/-- The locals of `onPaint` that live across loop iterations, with the canvas and the engine. -/
structure PaintState where
  pathBuilder : List PathCmd := []
  pathStarted : Bool := false
  canvas : List CanvasOp := []
  rng : Rng

/-- The segment appended by the `switch (element.kind)` of `onPaint`. -/
def segmentCmd (element : Element) (scale offsetX offsetY : ℚ) : PathCmd :=
  match element.kind with
  | SegmentKind.kLine =>
    PathCmd.lineTo (toPoint element.end_ scale offsetX offsetY)
  | SegmentKind.kQuad =>
    PathCmd.quadTo (toPoint element.control1 scale offsetX offsetY)
      (toPoint element.end_ scale offsetX offsetY)
  | SegmentKind.kCubic =>
    PathCmd.cubicTo (toPoint element.control1 scale offsetX offsetY)
      (toPoint element.control2 scale offsetX offsetY)
      (toPoint element.end_ scale offsetX offsetY)

/-- One iteration of the `for` loop of `onPaint`, for the element at index `i` of a buffer of
`size` elements.  Returns the new loop state and the element as it is stored back. -/
def paintElement (size i : Nat) (scale offsetX offsetY : ℚ) (st : PaintState)
    (element : Element) : PaintState × Element :=
  let st1 : PaintState :=
    if !st.pathStarted then
      { st with pathBuilder := st.pathBuilder ++ [PathCmd.moveTo (toPoint element.start scale offsetX offsetY)],
                pathStarted := true }
    else st
  let st2 : PaintState :=
    { st1 with pathBuilder := st1.pathBuilder ++ [segmentCmd element scale offsetX offsetY] }
  let finalize : Bool := element.split || (i + 1 == size)
  let st3 : PaintState :=
    if finalize && !st2.pathBuilder.isEmpty then
      { st2 with canvas := st2.canvas ++ [CanvasOp.drawPath st2.pathBuilder element.color element.width],
                 pathBuilder := [],
                 pathStarted := false }
    else st2
  let (u, r1) := fUnitDist st3.rng
  let element1 : Element :=
    if u > kSplitToggleThreshold then { element with split := !element.split } else element
  ({ st3 with rng := r1 }, element1)

/-- The `for (size_t i = 0; i < fElements.size(); ++i)` loop of `onPaint`, from index `i` over the
elements not yet visited.  Returns the final loop state and the visited elements as stored. -/
def paintLoop (size : Nat) (scale offsetX offsetY : ℚ) :
    Nat → PaintState → List Element → PaintState × List Element
  | _, st, [] => (st, [])
  | i, st, element :: rest =>
    let (st1, element1) := paintElement size i scale offsetX offsetY st element
    let (st2, rest1) := paintLoop size scale offsetX offsetY (i + 1) st1 rest
    (st2, element1 :: rest1)

/-- The `uniformScale` of `onPaint`, in exact arithmetic.  Its sign is that of the `float`
value: an `int` divided by 81 or 41 is zero or negative exactly when the `int` is. -/
def uniformScale (s : MotionMarkLayer) : ℚ :=
  let scaleX : ℚ := (s.fWidth : ℚ) / ((kGridWidth + 1 : Int) : ℚ)
  let scaleY : ℚ := (s.fHeight : ℚ) / ((kGridHeight + 1 : Int) : ℚ)
  max 0 (min scaleX scaleY)

def paintOffsetX (s : MotionMarkLayer) : ℚ :=
  ((s.fWidth : ℚ) - uniformScale s * ((kGridWidth + 1 : Int) : ℚ)) * (1 / 2)

def paintOffsetY (s : MotionMarkLayer) : ℚ :=
  ((s.fHeight : ℚ) - uniformScale s * ((kGridHeight + 1 : Int) : ℚ)) * (1 / 2)

/-- The loop of `onPaint` run on the whole buffer, started after the background clear. -/
def paintAll (s : MotionMarkLayer) : PaintState × List Element :=
  paintLoop s.fElements.length (uniformScale s) (paintOffsetX s) (paintOffsetY s) 0
    { canvas := [CanvasOp.clear backgroundColor], rng := s.fRng } s.fElements

/-- Translation of `MotionMarkLayer::onPaint`: the layer after the frame and the canvas calls of
the frame. -/
def onPaint (s : MotionMarkLayer) : MotionMarkLayer × List CanvasOp :=
  let canvas := [CanvasOp.clear backgroundColor]
  if s.fElements.isEmpty then
    (s, canvas)
  else if uniformScale s ≤ 0 then
    (s, canvas)
  else
    let (st, elements) := paintAll s
    ({ s with fElements := elements, fRng := st.rng }, st.canvas)

/-- The `drawPath` calls among the canvas operations. -/
def drawCalls (ops : List CanvasOp) : List CanvasOp :=
  ops.filter (fun op => match op with
    | CanvasOp.drawPath _ _ _ => true
    | CanvasOp.clear _ => false)

/-! ## Reachable layer states -/

/-- The states the layer can be in: built by the constructor, then driven by any sequence of
`setComplexity`, `onResize` and `onPaint` calls. -/
inductive Reachable : MotionMarkLayer → Prop where
  | construct (rng : Rng) : Reachable (construct rng)
  | setComplexity (s : MotionMarkLayer) (level : Int) :
      Reachable s → Reachable (setComplexity s level)
  | onResize (s : MotionMarkLayer) (width height : Int) :
      Reachable s → Reachable (onResize s width height)
  | onPaint (s : MotionMarkLayer) : Reachable s → Reachable (onPaint s).1

/-! ## Concrete inputs -/

/-- The engine whose every raw draw is `0`. -/
def zeroRng : Rng := ⟨fun _ => 0, 0⟩

/-- A small hand-built layer used to evaluate the renderer: three elements on the default
1280x720 viewport, the second one with its split flag set. -/
def sampleLayer : MotionMarkLayer :=
  { fElements :=
      [ { start := ⟨40, 20⟩, end_ := ⟨42, 20⟩ },
        { kind := SegmentKind.kQuad, start := ⟨42, 20⟩, control1 := ⟨43, 22⟩, end_ := ⟨44, 24⟩,
          split := true },
        { start := ⟨44, 24⟩, end_ := ⟨40, 24⟩ } ],
    fLastGridPoint := ⟨40, 24⟩,
    fRng := zeroRng }

/-- A layer whose buffer holds a single line element with its split flag clear, on the default
1280x720 viewport. -/
def singleLayer : MotionMarkLayer :=
  { fElements := [ { start := ⟨40, 20⟩, end_ := ⟨42, 20⟩ } ],
    fLastGridPoint := ⟨42, 20⟩,
    fRng := zeroRng }

/-- A layer whose buffer holds two chained line elements, both with the split flag clear, on
the default 1280x720 viewport. -/
def pairLayer : MotionMarkLayer :=
  { fElements := [ { start := ⟨40, 20⟩, end_ := ⟨42, 20⟩ }, { start := ⟨42, 20⟩, end_ := ⟨43, 22⟩ } ],
    fLastGridPoint := ⟨43, 22⟩,
    fRng := zeroRng }

/-! ## Predicates used by the statements -/

/-- The point lies in the grid `[0,80] x [0,40]`. -/
def inGrid (p : GridPoint) : Prop :=
  0 ≤ p.x ∧ p.x ≤ kGridWidth ∧ 0 ≤ p.y ∧ p.y ≤ kGridHeight

instance (p : GridPoint) : Decidable (inGrid p) := by
  unfold inGrid; infer_instance

/-- All four stored grid points of the element lie in the grid. -/
def Element.inGrid (e : Element) : Prop :=
  MotionMark.inGrid e.start ∧ MotionMark.inGrid e.control1 ∧
    MotionMark.inGrid e.control2 ∧ MotionMark.inGrid e.end_

instance (e : Element) : Decidable e.inGrid := by
  unfold Element.inGrid; infer_instance

/-- The elements form one chain that starts at `p`: each starts where its predecessor ends. -/
def ChainFrom : GridPoint → List Element → Prop
  | _, [] => True
  | p, e :: rest => e.start = p ∧ ChainFrom e.end_ rest

/-- The end point of the last element, or `p` for the empty buffer. -/
def chainEnd : GridPoint → List Element → GridPoint
  | p, [] => p
  | _, e :: rest => chainEnd e.end_ rest

/-- The two elements agree in every field except possibly the split flag. -/
def sameExceptSplit (e e1 : Element) : Prop :=
  e1 = { e with split := e1.split }

/-! ## Well-formed layers and the layer invariant -/

/-- The buffer is one chain from the grid centre, the cursor is the end of that chain, and every
stored point lies in the grid. -/
structure WellFormed (s : MotionMarkLayer) : Prop where
  chain : ChainFrom gridCentre s.fElements
  cursor : s.fLastGridPoint = chainEnd gridCentre s.fElements
  grid : ∀ e ∈ s.fElements, e.inGrid

/-- The invariant of the reachable states: a well-formed buffer whose length is the element
count of the recorded complexity, which lies in `[0,24]`. -/
structure Inv (s : MotionMarkLayer) extends WellFormed s : Prop where
  level_lo : 0 ≤ s.fComplexity
  level_hi : s.fComplexity ≤ 24
  count : (s.fElements.length : Int) = computeElementCount s.fComplexity

/-! ## The documented path assembly -/

/-- The stroke groups the specification describes: the buffer cut after every element whose
split flag is set; the last group ends at the last element whatever its flag. -/
def splitRuns : List Element → List (List Element)
  | [] => []
  | e :: rest =>
    if e.split then [e] :: splitRuns rest
    else
      match splitRuns rest with
      | [] => [[e]]
      | run :: runs => (e :: run) :: runs

/-- The path the specification describes for one group: a `moveTo` at the start point of the
first element, then one segment per element. -/
def runPath (scale offsetX offsetY : ℚ) : List Element → List PathCmd
  | [] => []
  | first :: rest =>
    PathCmd.moveTo (toPoint first.start scale offsetX offsetY) ::
      (first :: rest).map (fun e => segmentCmd e scale offsetX offsetY)

/-- The stroke the specification describes for one group: its path, with the colour and the
width of the group's final element. -/
def strokeOfRun (scale offsetX offsetY : ℚ) (run : List Element) : CanvasOp :=
  CanvasOp.drawPath (runPath scale offsetX offsetY run) (back run).color (back run).width

/-- The open group `pending` joined to the first of the groups still to come. -/
def prependRun (pending : List Element) : List (List Element) → List (List Element)
  | [] => []
  | run :: runs => (pending ++ run) :: runs

/-- The documented pixel of a grid point: `offset + (gridCoord + 0.5) * scale` on each axis. -/
def documentedPixel (p : GridPoint) (scale offsetX offsetY : ℚ) : SkPoint :=
  { fX := offsetX + ((p.x : ℚ) + 1 / 2) * scale,
    fY := offsetY + ((p.y : ℚ) + 1 / 2) * scale }

/-- The documented path command of one element: a line to the end point for a Line, a quadratic
through control1 to the end point for a Quad, a cubic through control1 and control2 to the end
point for a Cubic, every point mapped to its pixel. -/
def documentedSegment (scale offsetX offsetY : ℚ) (e : Element) : PathCmd :=
  match e.kind with
  | SegmentKind.kLine =>
    PathCmd.lineTo (documentedPixel e.end_ scale offsetX offsetY)
  | SegmentKind.kQuad =>
    PathCmd.quadTo (documentedPixel e.control1 scale offsetX offsetY)
      (documentedPixel e.end_ scale offsetX offsetY)
  | SegmentKind.kCubic =>
    PathCmd.cubicTo (documentedPixel e.control1 scale offsetX offsetY)
      (documentedPixel e.control2 scale offsetX offsetY)
      (documentedPixel e.end_ scale offsetX offsetY)

/-- The documented stroke of one group of elements: the path that starts with a `moveTo` at the
pixel of the first element's start point and continues with the documented segment of every
element of the group in order, stroked with the colour and the width of the group's last
element.  No group is empty; the empty list is given an empty path. -/
def documentedStroke (scale offsetX offsetY : ℚ) : List Element → CanvasOp
  | [] => CanvasOp.drawPath [] SK_ColorWHITE 1
  | first :: rest =>
    CanvasOp.drawPath
      (PathCmd.moveTo (documentedPixel first.start scale offsetX offsetY) ::
        (first :: rest).map (documentedSegment scale offsetX offsetY))
      ((first :: rest).getLast (List.cons_ne_nil first rest)).color
      ((first :: rest).getLast (List.cons_ne_nil first rest)).width

/-- The command extends a path: it is a `lineTo`, `quadTo` or `cubicTo`, not a `moveTo`. -/
def isSegment : PathCmd → Bool
  | PathCmd.moveTo _ => false
  | PathCmd.lineTo _ => true
  | PathCmd.quadTo _ _ => true
  | PathCmd.cubicTo _ _ _ => true

/-- The segments of a canvas call in draw order: the commands of a stroked path other than its
`moveTo`; a clear has none. -/
def pathSegments : CanvasOp → List PathCmd
  | CanvasOp.clear _ => []
  | CanvasOp.drawPath path _ _ => path.filter isSegment

/-- An engine whose every raw draw is 16693330, so that every `fUnitDist` value is
`16693330 / 2^24`, the value of the literal `0.995f`. -/
def thresholdRng : Rng := ⟨fun _ => 16693330, 0⟩

/-- A layer with one line element, split flag clear, on the default 1280x720 viewport, whose
engine is `thresholdRng`. -/
def thresholdLayer : MotionMarkLayer :=
  { fElements := [ { start := ⟨40, 20⟩, end_ := ⟨42, 20⟩ } ],
    fLastGridPoint := ⟨42, 20⟩,
    fRng := thresholdRng }

/-- A layer with one line element, split flag clear, whose stored width is 0 and whose engine
draws `(2^24 - 1) / 2^24` every time. -/
def zeroWidthLayer : MotionMarkLayer :=
  { fElements := [ { start := ⟨40, 20⟩, end_ := ⟨42, 20⟩ } ],
    fLastGridPoint := ⟨42, 20⟩,
    fRng := ⟨fun _ => 16777215, 0⟩,
    fWidth := 0 }

/-- The layer with the split flag of its first element set and nothing else changed. -/
def setFirstSplit (s : MotionMarkLayer) : MotionMarkLayer :=
  match s.fElements with
  | [] => s
  | e :: rest => { s with fElements := { e with split := true } :: rest }

/-! ## The documented split-flag toggle and random-walk step -/

/-- The draw `u_i` that the frame starting in state `s` makes for the element at index `i`:
the `fUnitDist` value read `i` places after the engine's position at the start of the frame. -/
def frameDraw (s : MotionMarkLayer) (i : Nat) : ℚ :=
  (fUnitDist { s.fRng with pos := s.fRng.pos + i }).1

/-- The documented effect of a frame on one element whose draw is `u`: the split flag is
flipped when `u` exceeds the threshold, and nothing else changes. -/
def toggleSplit (u : ℚ) (e : Element) : Element :=
  if u > kSplitToggleThreshold then { e with split := !e.split } else e

/-- The documented effect of a frame on a buffer, the engine standing at `r`: one draw per
element, in order. -/
def toggledFrom (r : Rng) : List Element → List Element
  | [] => []
  | e :: rest => toggleSplit (fUnitDist r).1 e :: toggledFrom (fUnitDist r).2 rest

/-- The point `q` is one random-walk step from `p`: `q` is `p` moved by one of the four
offsets of `kOffsets`, reflected at the grid border. -/
def IsStep (p q : GridPoint) : Prop :=
  ∃ d ∈ kOffsets, q = reflectStep p d.1 d.2

instance (p q : GridPoint) : Decidable (IsStep p q) := by
  unfold IsStep; infer_instance

/-- An engine whose first four raw draws are 3, 1, 0, 1 and whose later draws are 0: segment
type 3 (cubic), then the offsets (2,0), (-4,0) and (2,0). -/
def cubicRng : Rng :=
  ⟨fun i => if i = 0 then 3 else if i = 1 then 1 else if i = 2 then 0 else if i = 3 then 1 else 0,
   0⟩

/-! ## The application: command line, start-up and idle ticks

Command-line arguments are lists of characters (C strings without their terminating NUL).
Times are exact rationals: a measured time is a finite `double`, and every finite `double` is a
rational number. -/

/-- The characters the C library's `isspace` accepts in the "C" locale: the space and the
control characters with codes 9 to 13. -/
def isSpaceChar (c : Char) : Bool :=
  c.toNat = 32 || (9 ≤ c.toNat && c.toNat ≤ 13)

/-- The value of the leading decimal digits of a text, continuing from `acc`; reading stops at
the first character that is not a digit. -/
def digitsValue : Nat → List Char → Nat
  | acc, [] => acc
  | acc, c :: cs =>
    if c.isDigit then digitsValue (acc * 10 + (c.toNat - 48)) cs else acc

/-- The C library's `atoi`, which is not part of the repository, after the C standard: skip
white space, read an optional sign, then the decimal digits; a text without digits gives 0.
The exact value is returned.  For a value outside the range of `int` the standard leaves the
result undefined, and the statements below keep to that range. -/
def atoi (s : List Char) : Int :=
  match s.dropWhile isSpaceChar with
  | [] => 0
  | c :: rest =>
    if c = '-' then -((digitsValue 0 rest : Nat) : Int)
    else if c = '+' then ((digitsValue 0 rest : Nat) : Int)
    else ((digitsValue 0 (c :: rest) : Nat) : Int)

/-- The source's `kPrefix`. -/
def kPrefix : List Char := "--complexity=".toList

/-- The test `std::strncmp(a, b, n) == 0` on NUL-free strings: the first `n` characters agree,
or both strings end before `n` characters and are equal. -/
def strncmpEq (a b : List Char) (n : Nat) : Bool :=
  a.take n == b.take n

/-- The `for` loop of `parseComplexityArg` over the arguments not yet visited. -/
def parseComplexityLoop : List (List Char) → Int
  | [] => -1
  | arg :: rest =>
    if strncmpEq arg kPrefix kPrefix.length then atoi (arg.drop kPrefix.length)
    else parseComplexityLoop rest

/-- Translation of `parseComplexityArg`: the loop starts at `argv[1]`. -/
def parseComplexityArg (argv : List (List Char)) : Int :=
  parseComplexityLoop (argv.drop 1)

/-- The host window as far as `init` uses it: whether some backend attaches to it (the raster
fallback included) and the size it reports. -/
structure Window where
  attaches : Bool
  width : Int
  height : Int

/-- The fields of `MotionMarkApplication` that the modelled code reads or writes. -/
structure MotionMarkApplication where
  fWindow : Option Window
  fLayer : Option MotionMarkLayer := none
  fAccumulatedTime : ℚ := 0
  fFrameCounter : Int := 0
  fRequestedComplexity : Int := -1

/-- Translation of the constructor `MotionMarkApplication::MotionMarkApplication`. -/
def constructApplication (window : Option Window) (complexityArg : Int) :
    MotionMarkApplication :=
  { fWindow := window, fRequestedComplexity := complexityArg }

/-- Translation of `MotionMarkApplication::init`: the application afterwards and the returned
flag.  The engine of the new layer is `rng`. -/
def init (app : MotionMarkApplication) (rng : Rng) : MotionMarkApplication × Bool :=
  match app.fWindow with
  | none => (app, false)
  | some window =>
    if !window.attaches then (app, false)
    else
      let layer := construct rng
      let layer :=
        if app.fRequestedComplexity ≥ 0 then setComplexity layer app.fRequestedComplexity
        else layer
      let layer := onResize layer window.width window.height
      ({ app with fLayer := some layer }, true)

/-- Translation of `sk_app::Application::Create`: `none` stands for the null pointer. -/
def create (argv : List (List Char)) (window : Option Window) (rng : Rng) :
    Option MotionMarkApplication :=
  match window with
  | none => none
  | some w =>
    let complexityArg := parseComplexityArg argv
    let app := constructApplication (some w) complexityArg
    let (app1, ok) := init app rng
    if ok then some app1 else none

/-- The layer of the application that `create` returns, if it returns one. -/
def createdLayer (argv : List (List Char)) (window : Option Window) (rng : Rng) :
    Option MotionMarkLayer :=
  (create argv window rng).bind (fun app => app.fLayer)

/-- The source's `std::clamp` on `double` values. -/
def clampTime (v lo hi : ℚ) : ℚ :=
  if v < lo then lo else if hi < v then hi else v

/-- Translation of `MotionMarkApplication::onIdle`.  `elapsed` is the measured time since the
last tick.  Returns the application afterwards and the frames-per-second value put into the
title, when a title is published.  The frame counter is not wrapped: with a layer present it
is reset before it can pass 120. -/
def onIdle (app : MotionMarkApplication) (elapsed : ℚ) : MotionMarkApplication × Option ℚ :=
  let dt := clampTime elapsed (1 / 240) (1 / 4)
  let acc := app.fAccumulatedTime + dt
  let counter := app.fFrameCounter + 1
  if acc ≥ 1 / 2 ∧ app.fLayer.isSome then
    let fps := (counter : ℚ) / acc
    ({ app with fAccumulatedTime := 0, fFrameCounter := 0 }, some fps)
  else
    ({ app with fAccumulatedTime := acc, fFrameCounter := counter }, none)

/-- The application states of a run: built by the constructor, then driven by `init` and any
sequence of idle ticks with any elapsed times. -/
inductive AppReachable : MotionMarkApplication → Prop where
  | construct (window : Option Window) (complexityArg : Int) :
      AppReachable (constructApplication window complexityArg)
  | init (app : MotionMarkApplication) (rng : Rng) :
      AppReachable app → AppReachable (init app rng).1
  | onIdle (app : MotionMarkApplication) (elapsed : ℚ) :
      AppReachable app → AppReachable (onIdle app elapsed).1

/-- The accumulated time is the sum of the clamped times of the counted ticks: it lies between
`counter / 240` and `counter / 4`. -/
structure IdleInv (app : MotionMarkApplication) : Prop where
  counter_nonneg : 0 ≤ app.fFrameCounter
  acc_lo : (app.fFrameCounter : ℚ) * (1 / 240) ≤ app.fAccumulatedTime
  acc_hi : app.fAccumulatedTime ≤ (app.fFrameCounter : ℚ) * (1 / 4)

/-- The decimal numeral of an integer: a minus sign for a negative one, then the digits. -/
def decimal (n : Int) : List Char :=
  if n < 0 then '-' :: Nat.toDigits 10 n.natAbs else Nat.toDigits 10 n.natAbs

/-- The command-line argument `--complexity=n`. -/
def complexityFlag (n : Int) : List Char := kPrefix ++ decimal n

/-- A window to which a backend attaches, 800 by 600. -/
def sampleWindow : Window := { attaches := true, width := 800, height := 600 }

/-- An application that was created on `sampleWindow` without a complexity flag, initialised,
and has seen one idle tick a quarter of a second after start-up. -/
def tickedApplication : MotionMarkApplication :=
  (onIdle (init (constructApplication (some sampleWindow) (-1)) zeroRng).1 (1 / 4)).1

/-! ## Element count -/

theorem computeElementCount_low (level : Int) (h : level < 10) :
    computeElementCount level = (level + 1) * 1000 := by
  simp [computeElementCount, h]

theorem computeElementCount_high (level : Int) (h : 10 ≤ level) :
    computeElementCount level = min ((level - 8) * 10000) 120000 := by
  have h1 : ¬ level < 10 := by omega
  simp [computeElementCount, h1]

theorem computeElementCount_pos (level : Int) (h0 : 0 ≤ level) :
    1000 ≤ computeElementCount level := by
  by_cases h : level < 10
  · rw [computeElementCount_low level h]; omega
  · rw [computeElementCount_high level (by omega)]
    omega

theorem clamp_range (v : Int) : 0 ≤ clamp v 0 24 ∧ clamp v 0 24 ≤ 24 := by
  unfold clamp
  split_ifs <;> omega

/-- C1. `computeElementCount` is the documented step function: `(level+1)*1000` on levels
0..9 and `min((level-8)*10000, 120000)` on levels 10..24, with the four documented values. -/
theorem computeElementCount_step (level : Int) (h0 : 0 ≤ level) (h24 : level ≤ 24) :
    (level ≤ 9 → computeElementCount level = (level + 1) * 1000) ∧
    (10 ≤ level → computeElementCount level = min ((level - 8) * 10000) 120000) ∧
    computeElementCount 0 = 1000 ∧ computeElementCount 9 = 10000 ∧
    computeElementCount 10 = 20000 ∧ computeElementCount 24 = 120000 := by
  refine ⟨fun h => computeElementCount_low level (by omega),
    fun h => computeElementCount_high level h, ?_, ?_, ?_, ?_⟩ <;> decide

theorem computeElementCount_step_witness :
    (0 : Int) ≤ 9 ∧ (9 : Int) ≤ 24 ∧ computeElementCount 9 = (9 + 1) * 1000 :=
  ⟨by decide, by decide, (computeElementCount_step 9 (by decide) (by decide)).1 (by decide)⟩

/-! ## The random walk stays in the grid -/

theorem reflectStep_inGrid (p : GridPoint) (dx dy : Int) (hmem : (dx, dy) ∈ kOffsets)
    (hp : inGrid p) : inGrid (reflectStep p dx dy) := by
  simp only [kOffsets, List.mem_cons, Prod.mk.injEq, List.mem_singleton, List.not_mem_nil,
    or_false] at hmem
  unfold inGrid at hp ⊢
  simp only [kGridWidth, kGridHeight] at hp ⊢
  obtain ⟨hx0, hx1, hy0, hy1⟩ := hp
  rcases hmem with ⟨rfl, rfl⟩ | ⟨rfl, rfl⟩ | ⟨rfl, rfl⟩ | ⟨rfl, rfl⟩ <;>
    (simp only [reflectStep, kGridWidth, kGridHeight]; split_ifs <;> omega)

theorem offset_mem (idx : Nat) (h : idx < 4) : kOffsets.getD idx (0, 0) ∈ kOffsets := by
  interval_cases idx <;> simp [kOffsets]

theorem uniformIntDist_range (lo hi : Nat) (r : Rng) (h : lo ≤ hi) :
    lo ≤ (uniformIntDist lo hi r).1 ∧ (uniformIntDist lo hi r).1 ≤ hi := by
  simp only [uniformIntDist, Rng.draw]
  have := Nat.mod_lt (r.stream r.pos) (show 0 < hi - lo + 1 by omega)
  omega

theorem randomPoint_inGrid (r : Rng) (p : GridPoint) (hp : inGrid p) :
    inGrid (randomPoint r p).1 := by
  have hr := uniformIntDist_range 0 (kOffsets.length - 1) r (by decide)
  have hlt : (uniformIntDist 0 (kOffsets.length - 1) r).1 < 4 := by
    have : kOffsets.length - 1 = 3 := by decide
    omega
  have hm := offset_mem _ hlt
  simp only [randomPoint]
  exact reflectStep_inGrid p _ _ hm hp

/-! ## Element synthesis -/

theorem createRandomElement_start (r : Rng) (p : GridPoint) :
    (createRandomElement r p).1.start = p := by
  simp only [createRandomElement]
  split_ifs <;> rfl

theorem inGrid_default : inGrid ({} : GridPoint) := by decide

theorem createRandomElement_inGrid (r : Rng) (p : GridPoint) (hp : inGrid p) :
    (createRandomElement r p).1.inGrid := by
  have h1 := randomPoint_inGrid (uniformIntDist 0 3 r).2 p hp
  simp only [createRandomElement, Element.inGrid]
  split_ifs
  · exact ⟨hp, inGrid_default, inGrid_default, h1⟩
  · exact ⟨hp, h1, inGrid_default, randomPoint_inGrid _ _ h1⟩
  · exact ⟨hp, h1, randomPoint_inGrid _ _ h1, randomPoint_inGrid _ _ h1⟩

/-! ## Chains -/

theorem chainFrom_append (p : GridPoint) (l : List Element) (e : Element) :
    ChainFrom p (l ++ [e]) ↔ ChainFrom p l ∧ e.start = chainEnd p l := by
  induction l generalizing p with
  | nil => simp [ChainFrom, chainEnd]
  | cons a l ih => simp [ChainFrom, chainEnd, ih, and_assoc]

theorem chainEnd_append (p : GridPoint) (l : List Element) (e : Element) :
    chainEnd p (l ++ [e]) = e.end_ := by
  induction l generalizing p with
  | nil => simp [chainEnd]
  | cons a l ih => simp [chainEnd, ih]

theorem chainFrom_take (p : GridPoint) (l : List Element) (n : Nat) (h : ChainFrom p l) :
    ChainFrom p (l.take n) := by
  induction l generalizing p n with
  | nil => simpa using h
  | cons a l ih =>
    cases n with
    | zero => simp [ChainFrom]
    | succ n => exact ⟨h.1, ih _ _ h.2⟩

theorem chainEnd_eq_back (p : GridPoint) (l : List Element) (h : l ≠ []) :
    chainEnd p l = (back l).end_ := by
  induction l generalizing p with
  | nil => exact absurd rfl h
  | cons a l ih =>
    cases l with
    | nil => simp [chainEnd, back]
    | cons b l =>
      have := ih a.end_ (by simp)
      simpa [chainEnd, back] using this

theorem back_eq_getLast (l : List Element) (h : l ≠ []) : back l = l.getLast h := by
  cases l with
  | nil => exact absurd rfl h
  | cons a l => rfl

theorem chainFrom_head (p : GridPoint) (l : List Element) (h : ChainFrom p l)
    (hl : 0 < l.length) : l[0].start = p := by
  cases l with
  | nil => simp at hl
  | cons a l => exact h.1

theorem chainFrom_get (p : GridPoint) (l : List Element) (h : ChainFrom p l) (i : Nat)
    (hi : i + 1 < l.length) : l[i + 1].start = l[i].end_ := by
  induction l generalizing p i with
  | nil => simp at hi
  | cons a l ih =>
    cases i with
    | zero =>
      cases l with
      | nil => simp at hi
      | cons b l => exact h.2.1
    | succ i =>
      have hi1 : i + 1 < l.length := by simpa using hi
      simpa using ih a.end_ h.2 i hi1

theorem inGrid_gridCentre : inGrid gridCentre := by decide

theorem chainEnd_inGrid (p : GridPoint) (l : List Element) (hp : inGrid p)
    (hl : ∀ e ∈ l, e.inGrid) : inGrid (chainEnd p l) := by
  induction l generalizing p with
  | nil => exact hp
  | cons a l ih =>
    exact ih a.end_ (hl a (List.mem_cons_self a l)).2.2.2
      (fun e he => hl e (List.mem_cons_of_mem a he))

/-! ## Growing and shrinking keep the buffer well formed -/

theorem WellFormed.cursor_inGrid {s : MotionMarkLayer} (h : WellFormed s) :
    inGrid s.fLastGridPoint := by
  rw [h.cursor]
  exact chainEnd_inGrid _ _ inGrid_gridCentre h.grid

theorem growLoop_wf (n : Nat) (s : MotionMarkLayer) (h : WellFormed s) :
    WellFormed (growLoop n s) := by
  induction n generalizing s with
  | zero => exact h
  | succ n ih =>
    simp only [growLoop]
    apply ih
    refine ⟨?_, ?_, ?_⟩
    · exact (chainFrom_append _ _ _).2
        ⟨h.chain, by rw [createRandomElement_start]; exact h.cursor⟩
    · exact (chainEnd_append _ _ _).symm
    · intro e he
      rcases List.mem_append.1 he with he | he
      · exact h.grid e he
      · rw [List.mem_singleton.1 he]
        exact createRandomElement_inGrid _ _ h.cursor_inGrid

theorem growLoop_elements (n : Nat) (s : MotionMarkLayer) :
    ∃ tail : List Element, tail.length = n ∧ (growLoop n s).fElements = s.fElements ++ tail := by
  induction n generalizing s with
  | zero => exact ⟨[], rfl, by simp [growLoop]⟩
  | succ n ih =>
    simp only [growLoop]
    obtain ⟨tail, hlen, heq⟩ := ih
      { s with fElements := s.fElements ++ [(createRandomElement s.fRng s.fLastGridPoint).1],
               fLastGridPoint := (createRandomElement s.fRng s.fLastGridPoint).1.end_,
               fRng := (createRandomElement s.fRng s.fLastGridPoint).2 }
    refine ⟨(createRandomElement s.fRng s.fLastGridPoint).1 :: tail, by simp [hlen], ?_⟩
    rw [heq]
    simp

theorem growLoop_fields (n : Nat) (s : MotionMarkLayer) :
    (growLoop n s).fComplexity = s.fComplexity ∧ (growLoop n s).fWidth = s.fWidth ∧
      (growLoop n s).fHeight = s.fHeight := by
  induction n generalizing s with
  | zero => exact ⟨rfl, rfl, rfl⟩
  | succ n ih =>
    simp only [growLoop]
    exact ih _

theorem resizeElements_same (s : MotionMarkLayer) (t : Int)
    (h : t = (s.fElements.length : Int)) : resizeElements s t = s := by
  simp only [resizeElements, h, if_true]

theorem resizeElements_shrink (s : MotionMarkLayer) (t : Int)
    (h : t < (s.fElements.length : Int)) :
    resizeElements s t =
      { s with fElements := s.fElements.take t.toNat,
               fLastGridPoint :=
                 if t > 0 then (back (s.fElements.take t.toNat)).end_ else gridCentre } := by
  have h1 : ¬ t = (s.fElements.length : Int) := by omega
  simp only [resizeElements, h1, h, if_true, if_false]

theorem resizeElements_grow (s : MotionMarkLayer) (t : Int)
    (h : (s.fElements.length : Int) < t) :
    resizeElements s t =
      growLoop (t - (s.fElements.length : Int)).toNat
        { s with fLastGridPoint :=
            if (s.fElements.length : Int) = 0 then gridCentre else (back s.fElements).end_ } := by
  have h1 : ¬ t = (s.fElements.length : Int) := by omega
  have h2 : ¬ t < (s.fElements.length : Int) := by omega
  simp only [resizeElements, h1, h2, if_false]

theorem resizeElements_fields (s : MotionMarkLayer) (t : Int) :
    (resizeElements s t).fComplexity = s.fComplexity ∧ (resizeElements s t).fWidth = s.fWidth ∧
      (resizeElements s t).fHeight = s.fHeight := by
  rcases lt_trichotomy t (s.fElements.length : Int) with h | h | h
  · rw [resizeElements_shrink s t h]; exact ⟨rfl, rfl, rfl⟩
  · rw [resizeElements_same s t h]; exact ⟨rfl, rfl, rfl⟩
  · rw [resizeElements_grow s t h]; exact growLoop_fields _ _

theorem resizeElements_length (s : MotionMarkLayer) (t : Int) (ht : 0 ≤ t) :
    ((resizeElements s t).fElements.length : Int) = t := by
  rcases lt_trichotomy t (s.fElements.length : Int) with h | h | h
  · rw [resizeElements_shrink s t h]
    simp only [List.length_take]
    omega
  · rw [resizeElements_same s t h]; exact h.symm
  · rw [resizeElements_grow s t h]
    obtain ⟨tail, hlen, heq⟩ := growLoop_elements (t - (s.fElements.length : Int)).toNat
      { s with fLastGridPoint :=
          if (s.fElements.length : Int) = 0 then gridCentre else (back s.fElements).end_ }
    rw [heq]
    simp only [List.length_append, hlen]
    omega

theorem resizeElements_wf (s : MotionMarkLayer) (t : Int) (ht : 0 < t) (h : WellFormed s) :
    WellFormed (resizeElements s t) := by
  rcases lt_trichotomy t (s.fElements.length : Int) with h1 | h1 | h1
  · rw [resizeElements_shrink s t h1]
    have hne : s.fElements.take t.toNat ≠ [] := by
      intro hnil
      have := congrArg List.length hnil
      simp only [List.length_take, List.length_nil] at this
      omega
    refine ⟨chainFrom_take _ _ _ h.chain, ?_, fun e he => h.grid e (List.mem_of_mem_take he)⟩
    simp only [gt_iff_lt, ht, if_true]
    exact (chainEnd_eq_back _ _ hne).symm
  · rw [resizeElements_same s t h1]; exact h
  · rw [resizeElements_grow s t h1]
    apply growLoop_wf
    refine ⟨h.chain, ?_, h.grid⟩
    show (if (s.fElements.length : Int) = 0 then gridCentre else (back s.fElements).end_) = _
    split_ifs with h3
    · have : s.fElements = [] := List.length_eq_zero.1 (by omega)
      rw [this]; rfl
    · have : s.fElements ≠ [] := by
        intro hnil; rw [hnil] at h3; simp at h3
      exact (chainEnd_eq_back _ _ this).symm

/-! ## A frame changes split flags only -/

theorem sameExceptSplit_refl (e : Element) : sameExceptSplit e e := by
  cases e; rfl

theorem sameExceptSplit_ite (e : Element) (c : Prop) [Decidable c] :
    sameExceptSplit e (if c then { e with split := !e.split } else e) := by
  split_ifs
  · cases e; rfl
  · exact sameExceptSplit_refl e

theorem paintElement_same (size i : Nat) (sc ox oy : ℚ) (st : PaintState) (e : Element) :
    sameExceptSplit e (paintElement size i sc ox oy st e).2 := by
  simp only [paintElement]
  exact sameExceptSplit_ite e _

theorem paintLoop_same (size : Nat) (sc ox oy : ℚ) (i : Nat) (st : PaintState)
    (l : List Element) :
    List.Forall₂ sameExceptSplit l (paintLoop size sc ox oy i st l).2 := by
  induction l generalizing i st with
  | nil => exact List.Forall₂.nil
  | cons e rest ih =>
    simp only [paintLoop]
    exact List.Forall₂.cons (paintElement_same _ _ _ _ _ _ _) (ih _ _)

theorem onPaint_same (s : MotionMarkLayer) :
    List.Forall₂ sameExceptSplit s.fElements (onPaint s).1.fElements := by
  have hrefl : List.Forall₂ sameExceptSplit s.fElements s.fElements :=
    List.forall₂_same.2 (fun e _ => sameExceptSplit_refl e)
  simp only [onPaint]
  split_ifs
  · exact hrefl
  · exact hrefl
  · exact paintLoop_same _ _ _ _ _ _ _

theorem onPaint_fields (s : MotionMarkLayer) :
    (onPaint s).1.fLastGridPoint = s.fLastGridPoint ∧
      (onPaint s).1.fComplexity = s.fComplexity ∧ (onPaint s).1.fWidth = s.fWidth ∧
      (onPaint s).1.fHeight = s.fHeight := by
  simp only [onPaint]
  split_ifs <;> exact ⟨rfl, rfl, rfl, rfl⟩

theorem same_chainFrom {l l1 : List Element} (h : List.Forall₂ sameExceptSplit l l1)
    (p : GridPoint) (hc : ChainFrom p l) : ChainFrom p l1 := by
  induction h generalizing p with
  | nil => exact hc
  | cons hab _ ih =>
    refine ⟨?_, ?_⟩
    · rw [congrArg Element.start hab]; exact hc.1
    · rw [congrArg Element.end_ hab]; exact ih _ hc.2

theorem same_chainEnd {l l1 : List Element} (h : List.Forall₂ sameExceptSplit l l1)
    (p : GridPoint) : chainEnd p l1 = chainEnd p l := by
  induction h generalizing p with
  | nil => rfl
  | cons hab _ ih =>
    simp only [chainEnd]
    rw [congrArg Element.end_ hab]
    exact ih _

theorem same_grid {l l1 : List Element} (h : List.Forall₂ sameExceptSplit l l1)
    (hg : ∀ e ∈ l, e.inGrid) : ∀ e ∈ l1, e.inGrid := by
  induction h with
  | nil => exact hg
  | @cons a b l l1 hab _ ih =>
    intro e he
    rcases List.mem_cons.1 he with rfl | he
    · have ha := hg a (List.mem_cons_self a l)
      unfold Element.inGrid at ha ⊢
      rw [congrArg Element.start hab, congrArg Element.control1 hab,
        congrArg Element.control2 hab, congrArg Element.end_ hab]
      exact ha
    · exact ih (fun x hx => hg x (List.mem_cons_of_mem a hx)) e he

/-! ## The invariant holds in every reachable state -/

theorem inv_resize (s : MotionMarkLayer) (level : Int) (h0 : 0 ≤ level) (h24 : level ≤ 24)
    (h : WellFormed s) :
    Inv (resizeElements { s with fComplexity := level } (computeElementCount level)) := by
  have hpos := computeElementCount_pos level h0
  have hw : WellFormed { s with fComplexity := level } := ⟨h.chain, h.cursor, h.grid⟩
  have hf := resizeElements_fields { s with fComplexity := level } (computeElementCount level)
  refine { toWellFormed := resizeElements_wf _ _ (by omega) hw, level_lo := ?_, level_hi := ?_,
           count := ?_ }
  · rw [hf.1]; exact h0
  · rw [hf.1]; exact h24
  · rw [hf.1]; exact resizeElements_length _ _ (by omega)

theorem inv_construct (rng : Rng) : Inv (construct rng) :=
  inv_resize { fRng := rng } 8 (by decide) (by decide) ⟨trivial, rfl, by simp⟩

theorem inv_setComplexity (s : MotionMarkLayer) (level : Int) (h : Inv s) :
    Inv (setComplexity s level) := by
  simp only [setComplexity]
  split_ifs with h1
  · exact h
  · exact inv_resize s _ (clamp_range level).1 (clamp_range level).2 h.toWellFormed

theorem inv_onResize (s : MotionMarkLayer) (w ht : Int) (h : Inv s) : Inv (onResize s w ht) :=
  { chain := h.chain, cursor := h.cursor, grid := h.grid, level_lo := h.level_lo,
    level_hi := h.level_hi, count := h.count }

theorem inv_onPaint (s : MotionMarkLayer) (h : Inv s) : Inv (onPaint s).1 := by
  have hs := onPaint_same s
  have hf := onPaint_fields s
  refine { chain := same_chainFrom hs _ h.chain, cursor := ?_, grid := same_grid hs h.grid,
           level_lo := ?_, level_hi := ?_, count := ?_ }
  · rw [hf.1, same_chainEnd hs]; exact h.cursor
  · rw [hf.2.1]; exact h.level_lo
  · rw [hf.2.1]; exact h.level_hi
  · rw [hf.2.1, ← hs.length_eq]; exact h.count

theorem Reachable.inv {s : MotionMarkLayer} (h : Reachable s) : Inv s := by
  induction h with
  | construct rng => exact inv_construct rng
  | setComplexity s level _ ih => exact inv_setComplexity s level ih
  | onResize s w ht _ ih => exact inv_onResize s w ht ih
  | onPaint s _ ih => exact inv_onPaint s ih

theorem construct_complexity (rng : Rng) : (construct rng).fComplexity = 8 :=
  (resizeElements_fields { fRng := rng } (computeElementCount 8)).1

theorem clamp_of_range (v : Int) (h0 : 0 ≤ v) (h24 : v ≤ 24) : clamp v 0 24 = v := by
  unfold clamp
  split_ifs <;> omega

theorem setComplexity_changed (s : MotionMarkLayer) (level : Int)
    (h : clamp level 0 24 ≠ s.fComplexity) :
    setComplexity s level =
      resizeElements { s with fComplexity := clamp level 0 24 }
        (computeElementCount (clamp level 0 24)) := by
  simp only [setComplexity, h, if_false]

theorem setComplexity_unchanged (s : MotionMarkLayer) (level : Int)
    (h : clamp level 0 24 = s.fComplexity) : setComplexity s level = s := by
  simp only [setComplexity, h, if_true]

theorem resizeElements_keeps_head (s : MotionMarkLayer) (t : Int) :
    (∃ tail : List Element, (resizeElements s t).fElements = s.fElements ++ tail) ∨
      (resizeElements s t).fElements = s.fElements.take t.toNat := by
  rcases lt_trichotomy t (s.fElements.length : Int) with h | h | h
  · rw [resizeElements_shrink s t h]; exact Or.inr rfl
  · rw [resizeElements_same s t h]; exact Or.inl ⟨[], by simp⟩
  · rw [resizeElements_grow s t h]
    obtain ⟨tail, _, heq⟩ := growLoop_elements (t - (s.fElements.length : Int)).toNat
      { s with fLastGridPoint :=
          if (s.fElements.length : Int) = 0 then gridCentre else (back s.fElements).end_ }
    exact Or.inl ⟨tail, heq⟩

theorem setComplexity_keeps_head (s : MotionMarkLayer) (level : Int) :
    (∃ tail : List Element, (setComplexity s level).fElements = s.fElements ++ tail) ∨
      (∃ m : Nat, (setComplexity s level).fElements = s.fElements.take m) := by
  by_cases h : clamp level 0 24 = s.fComplexity
  · rw [setComplexity_unchanged s level h]; exact Or.inl ⟨[], by simp⟩
  · rw [setComplexity_changed s level h]
    rcases resizeElements_keeps_head { s with fComplexity := clamp level 0 24 }
      (computeElementCount (clamp level 0 24)) with h1 | h1
    · exact Or.inl h1
    · exact Or.inr ⟨_, h1⟩

theorem setComplexity_complexity (s : MotionMarkLayer) (level : Int) :
    (setComplexity s level).fComplexity = clamp level 0 24 := by
  by_cases h1 : clamp level 0 24 = s.fComplexity
  · rw [setComplexity_unchanged s level h1]; exact h1.symm
  · rw [setComplexity_changed s level h1]
    exact (resizeElements_fields _ _).1

theorem setComplexity_length (s : MotionMarkLayer) (level : Int) (h : Inv s) :
    ((setComplexity s level).fElements.length : Int) =
      computeElementCount (clamp level 0 24) := by
  have hi := inv_setComplexity s level h
  rw [← setComplexity_complexity s level]
  exact hi.count

/-! ## Claims about the path generator -/

/-- C2. In every reachable state and for every integer level, `setComplexity level` records
`clamp(level, 0, 24)` and leaves exactly `computeElementCount(clamp(level, 0, 24))` elements;
the constructor too leaves `computeElementCount(complexity)` elements. -/
theorem setComplexity_count (s : MotionMarkLayer) (level : Int) (h : Reachable s) :
    (setComplexity s level).fComplexity = clamp level 0 24 ∧
    ((setComplexity s level).fElements.length : Int) =
      computeElementCount (clamp level 0 24) ∧
    ((setComplexity s level).fElements.length : Int) =
      computeElementCount (setComplexity s level).fComplexity ∧
    (∀ rng : Rng, ((construct rng).fElements.length : Int) =
      computeElementCount (construct rng).fComplexity) := by
  exact ⟨setComplexity_complexity s level, setComplexity_length s level h.inv,
    (inv_setComplexity s level h.inv).count, fun rng => (inv_construct rng).count⟩

theorem setComplexity_count_witness :
    (setComplexity (construct zeroRng) 30).fComplexity = clamp 30 0 24 ∧
    ((setComplexity (construct zeroRng) 30).fElements.length : Int) =
      computeElementCount (clamp 30 0 24) :=
  ⟨(setComplexity_count (construct zeroRng) 30 (Reachable.construct zeroRng)).1,
   (setComplexity_count (construct zeroRng) 30 (Reachable.construct zeroRng)).2.1⟩

/-- C3. Chain continuity in every reachable state: the buffer is non-empty, element `i+1`
starts where element `i` ends, element 0 starts at the grid centre (40,20), and the cursor
`fLastGridPoint` is the end point of the last element. -/
theorem chain_continuity (s : MotionMarkLayer) (h : Reachable s) :
    (∀ (i : Nat) (hi : i + 1 < s.fElements.length),
      s.fElements[i + 1].start = s.fElements[i].end_) ∧
    (∀ h0 : 0 < s.fElements.length, s.fElements[0].start = { x := 40, y := 20 }) ∧
    (∀ hne : s.fElements ≠ [], s.fLastGridPoint = (s.fElements.getLast hne).end_) ∧
    s.fElements ≠ [] := by
  have hi := h.inv
  have hpos := computeElementCount_pos s.fComplexity hi.level_lo
  have hne : s.fElements ≠ [] := by
    intro hnil
    have hc := hi.count
    rw [hnil] at hc
    simp only [List.length_nil, Nat.cast_zero] at hc
    omega
  refine ⟨fun i hlt => chainFrom_get _ _ hi.chain i hlt,
    fun h0 => chainFrom_head _ _ hi.chain h0, fun hne1 => ?_, hne⟩
  rw [hi.cursor, chainEnd_eq_back _ _ hne1, back_eq_getLast _ hne1]

theorem chain_continuity_witness :
    Reachable (construct zeroRng) ∧ (construct zeroRng).fElements ≠ [] :=
  ⟨Reachable.construct zeroRng,
   (chain_continuity (construct zeroRng) (Reachable.construct zeroRng)).2.2.2⟩

/-- C4. Grid containment: in every reachable state all four stored points of every element
satisfy `0 <= x <= 80` and `0 <= y <= 40`; and `randomPoint` maps the grid into the grid, for
each of the four offsets and hence for every draw. -/
theorem grid_containment (s : MotionMarkLayer) (h : Reachable s) :
    (∀ e ∈ s.fElements,
      (0 ≤ e.start.x ∧ e.start.x ≤ 80 ∧ 0 ≤ e.start.y ∧ e.start.y ≤ 40) ∧
      (0 ≤ e.control1.x ∧ e.control1.x ≤ 80 ∧ 0 ≤ e.control1.y ∧ e.control1.y ≤ 40) ∧
      (0 ≤ e.control2.x ∧ e.control2.x ≤ 80 ∧ 0 ≤ e.control2.y ∧ e.control2.y ≤ 40) ∧
      (0 ≤ e.end_.x ∧ e.end_.x ≤ 80 ∧ 0 ≤ e.end_.y ∧ e.end_.y ≤ 40)) ∧
    (∀ (p : GridPoint) (dx dy : Int), (dx, dy) ∈ kOffsets → inGrid p →
      inGrid (reflectStep p dx dy)) ∧
    (∀ (r : Rng) (p : GridPoint), inGrid p → inGrid (randomPoint r p).1) :=
  ⟨fun e he => h.inv.grid e he, fun p dx dy hm hp => reflectStep_inGrid p dx dy hm hp,
    fun r p hp => randomPoint_inGrid r p hp⟩

theorem grid_containment_witness :
    Reachable (construct zeroRng) ∧ inGrid (randomPoint zeroRng { x := 2, y := 20 }).1 :=
  ⟨Reachable.construct zeroRng,
   (grid_containment (construct zeroRng) (Reachable.construct zeroRng)).2.2 zeroRng
     { x := 2, y := 20 } (by decide)⟩

/-- C5. Tail-only mutation: one `setComplexity` call keeps the first `min(n, m)` elements
identical in every field, where `n` and `m` are the buffer lengths before and after; the new
buffer is the old one with elements appended, or a truncation of the old one.  This holds in
every layer state, reachable or not. -/
theorem setComplexity_tail_only (s : MotionMarkLayer) (level : Int) :
    (setComplexity s level).fElements.take
        (min s.fElements.length (setComplexity s level).fElements.length) =
      s.fElements.take (min s.fElements.length (setComplexity s level).fElements.length) ∧
    ((∃ tail : List Element, (setComplexity s level).fElements = s.fElements ++ tail) ∨
      (∃ m : Nat, (setComplexity s level).fElements = s.fElements.take m)) := by
  refine ⟨?_, setComplexity_keeps_head s level⟩
  rcases setComplexity_keeps_head s level with ⟨tail, h⟩ | ⟨m, h⟩
  · rw [h]
    simp [List.take_append_eq_append_take]
  · rw [h]
    simp [List.take_take]

/-- C6. Grow-then-shrink round trip: from a reachable state at level `a`, raising the
complexity to a level with a larger target count and then setting it back to `a` restores the
element buffer and the cursor exactly. -/
theorem grow_shrink_round_trip (s : MotionMarkLayer) (b : Int) (h : Reachable s)
    (hb : computeElementCount s.fComplexity < computeElementCount (clamp b 0 24)) :
    (setComplexity (setComplexity s b) s.fComplexity).fElements = s.fElements ∧
    (setComplexity (setComplexity s b) s.fComplexity).fLastGridPoint = s.fLastGridPoint := by
  have hi := h.inv
  have hne : clamp b 0 24 ≠ s.fComplexity := by
    intro heq; rw [heq] at hb; exact lt_irrefl _ hb
  have hpos := computeElementCount_pos s.fComplexity hi.level_lo
  have hcount := hi.count
  -- the state after growing
  have hgrow : (s.fElements.length : Int) < computeElementCount (clamp b 0 24) := by omega
  obtain ⟨tail, _, hel⟩ := growLoop_elements
    (computeElementCount (clamp b 0 24) - (s.fElements.length : Int)).toNat
    { s with fComplexity := clamp b 0 24,
             fLastGridPoint :=
               if (s.fElements.length : Int) = 0 then gridCentre else (back s.fElements).end_ }
  have hs1 : setComplexity s b =
      growLoop (computeElementCount (clamp b 0 24) - (s.fElements.length : Int)).toNat
        { s with fComplexity := clamp b 0 24,
                 fLastGridPoint :=
                   if (s.fElements.length : Int) = 0 then gridCentre
                   else (back s.fElements).end_ } := by
    rw [setComplexity_changed s b hne]
    exact resizeElements_grow _ _ hgrow
  have hc1 : (setComplexity s b).fComplexity = clamp b 0 24 := setComplexity_complexity s b
  have hlen1 := setComplexity_length s b hi
  have hel1 : (setComplexity s b).fElements = s.fElements ++ tail := by rw [hs1]; exact hel
  -- setting the level back
  have hca : clamp s.fComplexity 0 24 = s.fComplexity :=
    clamp_of_range _ hi.level_lo hi.level_hi
  have hne2 : clamp s.fComplexity 0 24 ≠ (setComplexity s b).fComplexity := by
    rw [hca, hc1]; exact fun heq => hne heq.symm
  have hshrink : computeElementCount s.fComplexity <
      (({ setComplexity s b with fComplexity := s.fComplexity } :
        MotionMarkLayer).fElements.length : Int) := by
    show computeElementCount s.fComplexity < ((setComplexity s b).fElements.length : Int)
    omega
  rw [setComplexity_changed _ _ hne2, hca, resizeElements_shrink _ _ hshrink]
  have htake : (setComplexity s b).fElements.take (computeElementCount s.fComplexity).toNat =
      s.fElements := by
    rw [hel1, ← hcount]
    simp
  have hnil : s.fElements ≠ [] := by
    intro hn; rw [hn] at hcount; simp at hcount; omega
  refine ⟨htake, ?_⟩
  show (if computeElementCount s.fComplexity > 0 then
      (back ((setComplexity s b).fElements.take (computeElementCount s.fComplexity).toNat)).end_
    else gridCentre) = s.fLastGridPoint
  rw [htake, if_pos (by omega), hi.cursor, chainEnd_eq_back _ _ hnil]

theorem grow_shrink_round_trip_witness :
    Reachable (construct zeroRng) ∧
    computeElementCount (construct zeroRng).fComplexity < computeElementCount (clamp 12 0 24) ∧
    (setComplexity (setComplexity (construct zeroRng) 12) (construct zeroRng).fComplexity).fElements
      = (construct zeroRng).fElements :=
  ⟨Reachable.construct zeroRng,
   by rw [construct_complexity]; decide,
   (grow_shrink_round_trip (construct zeroRng) 12 (Reachable.construct zeroRng)
     (by rw [construct_complexity]; decide)).1⟩

/-! ## Stroke width -/

theorem fUnitDist_range (r : Rng) : 0 ≤ (fUnitDist r).1 ∧ (fUnitDist r).1 < 1 := by
  simp only [fUnitDist, Rng.draw]
  have hlt : r.stream r.pos % 2 ^ 24 < 2 ^ 24 := Nat.mod_lt _ (by norm_num)
  have hq : ((r.stream r.pos % 2 ^ 24 : Nat) : ℚ) < 2 ^ 24 := by exact_mod_cast hlt
  constructor
  · positivity
  · rw [div_lt_one (by norm_num)]
    exact hq

theorem strokeWidth_range (u : ℚ) (h0 : 0 ≤ u) (h1 : u < 1) :
    1 ≤ strokeWidth u ∧ strokeWidth u < 21 := by
  have hp : 0 ≤ u ^ 5 := pow_nonneg h0 5
  have hq : u ^ 5 < 1 := pow_lt_one₀ h0 h1 (by norm_num)
  unfold strokeWidth
  constructor <;> linarith

theorem createRandomElement_width (r : Rng) (p : GridPoint) :
    ∃ r1 : Rng, (createRandomElement r p).1.width = strokeWidth (fUnitDist r1).1 := by
  simp only [createRandomElement]
  split_ifs <;> exact ⟨_, rfl⟩

theorem createRandomElement_zero_width :
    (createRandomElement zeroRng gridCentre).1.width = strokeWidth 0 := by
  simp [createRandomElement, uniformIntDist, Rng.draw, randomPoint, fUnitDist, bernoulliDist,
    zeroRng]

/-- C7, counterexample. The uniform draw `U = 0` lies in `[0,1)`; `createRandomElement` makes
it when the engine's raw draws are all `0`, and the width is then exactly `1`, not greater. -/
theorem strokeWidth_zero_not_gt_one :
    (0 : ℚ) ≤ 0 ∧ (0 : ℚ) < 1 ∧
    (createRandomElement zeroRng gridCentre).1.width = strokeWidth 0 ∧
    strokeWidth 0 = 1 ∧ ¬ (1 < strokeWidth 0) := by
  refine ⟨le_refl _, by norm_num, createRandomElement_zero_width, ?_, ?_⟩ <;>
    norm_num [strokeWidth]

/-- C7, amended. For every uniform draw `U` in `[0,1)` the width `pow(U,5)*20+1` is at least
`1.0` and below `21.0` (so at most `21.0`); it is strictly greater than `1.0` exactly when
`U > 0`.  Every element made by `createRandomElement` has such a width. -/
theorem strokeWidth_bounds (u : ℚ) (h0 : 0 ≤ u) (h1 : u < 1) :
    1 ≤ strokeWidth u ∧ strokeWidth u ≤ 21 ∧ strokeWidth u < 21 ∧
    (1 < strokeWidth u ↔ 0 < u) ∧
    (∀ (r : Rng) (p : GridPoint),
      1 ≤ (createRandomElement r p).1.width ∧ (createRandomElement r p).1.width < 21) := by
  have hr := strokeWidth_range u h0 h1
  refine ⟨hr.1, le_of_lt hr.2, hr.2, ?_, ?_⟩
  · unfold strokeWidth
    constructor
    · intro h
      rcases eq_or_lt_of_le h0 with h2 | h2
      · rw [← h2] at h; norm_num at h
      · exact h2
    · intro h
      have : 0 < u ^ 5 := pow_pos h 5
      linarith
  · intro r p
    obtain ⟨r1, hw⟩ := createRandomElement_width r p
    rw [hw]
    exact strokeWidth_range _ (fUnitDist_range r1).1 (fUnitDist_range r1).2

theorem strokeWidth_bounds_witness :
    (0 : ℚ) ≤ 1 / 2 ∧ (1 / 2 : ℚ) < 1 ∧ 1 ≤ strokeWidth (1 / 2) ∧ strokeWidth (1 / 2) ≤ 21 :=
  ⟨by norm_num, by norm_num,
   (strokeWidth_bounds (1 / 2) (by norm_num) (by norm_num)).1,
   (strokeWidth_bounds (1 / 2) (by norm_num) (by norm_num)).2.1⟩

/-! ## Path assembly -/

theorem back_append_singleton (l : List Element) (e : Element) : back (l ++ [e]) = e := by
  have hne : l ++ [e] ≠ [] := by simp
  rw [back_eq_getLast _ hne]
  simp

theorem runPath_append (sc ox oy : ℚ) (a : Element) (l : List Element) (e : Element) :
    runPath sc ox oy ((a :: l) ++ [e]) = runPath sc ox oy (a :: l) ++ [segmentCmd e sc ox oy] := by
  simp [runPath]

/-- One loop iteration that finalizes: the open group, extended by the element, is stroked and
no path stays open. -/
theorem paintElement_finalize (size i : Nat) (sc ox oy : ℚ) (st : PaintState) (e : Element)
    (pending : List Element) (hpb : st.pathBuilder = runPath sc ox oy pending)
    (hst : st.pathStarted = !pending.isEmpty) (hfin : (e.split || (i + 1 == size)) = true) :
    (paintElement size i sc ox oy st e).1.canvas =
        st.canvas ++ [strokeOfRun sc ox oy (pending ++ [e])] ∧
      (paintElement size i sc ox oy st e).1.pathBuilder = [] ∧
      (paintElement size i sc ox oy st e).1.pathStarted = false := by
  cases pending with
  | nil =>
    simp only [List.isEmpty_nil, Bool.not_true] at hst
    simp only [runPath] at hpb
    simp [paintElement, hpb, hst, hfin, strokeOfRun, runPath, back]
  | cons a l =>
    simp only [List.isEmpty_cons, Bool.not_false] at hst
    have hb := back_append_singleton (a :: l) e
    have hp := runPath_append sc ox oy a l e
    simp only [paintElement, hpb, hst, hfin, strokeOfRun, hb, hp]
    simp [hpb]

/-- One loop iteration that does not finalize: the element joins the open group. -/
theorem paintElement_continue (size i : Nat) (sc ox oy : ℚ) (st : PaintState) (e : Element)
    (pending : List Element) (hpb : st.pathBuilder = runPath sc ox oy pending)
    (hst : st.pathStarted = !pending.isEmpty) (hfin : (e.split || (i + 1 == size)) = false) :
    (paintElement size i sc ox oy st e).1.canvas = st.canvas ∧
      (paintElement size i sc ox oy st e).1.pathBuilder = runPath sc ox oy (pending ++ [e]) ∧
      (paintElement size i sc ox oy st e).1.pathStarted = true := by
  cases pending with
  | nil =>
    simp only [List.isEmpty_nil, Bool.not_true] at hst
    simp only [runPath] at hpb
    simp [paintElement, hpb, hst, hfin, runPath]
  | cons a l =>
    simp only [List.isEmpty_cons, Bool.not_false] at hst
    have hp := runPath_append sc ox oy a l e
    simp only [paintElement, hpb, hst, hfin, hp]
    simp [hpb, hst]

theorem splitRuns_ne_nil (l : List Element) (h : l ≠ []) : splitRuns l ≠ [] := by
  cases l with
  | nil => exact absurd rfl h
  | cons e rest =>
    simp only [splitRuns]
    split_ifs
    · simp
    · split <;> simp

theorem splitRuns_cons_finalize (e : Element) (rest : List Element)
    (h : e.split = true ∨ rest = []) : splitRuns (e :: rest) = [e] :: splitRuns rest := by
  rcases h with h | h
  · simp [splitRuns, h]
  · subst h
    by_cases hs : e.split = true <;> simp [splitRuns, hs]

theorem splitRuns_cons_continue (e : Element) (rest : List Element) (h : e.split = false)
    (hr : rest ≠ []) :
    ∃ run runs, splitRuns rest = run :: runs ∧ splitRuns (e :: rest) = (e :: run) :: runs := by
  have hne := splitRuns_ne_nil rest hr
  cases hsr : splitRuns rest with
  | nil => exact absurd hsr hne
  | cons run runs => exact ⟨run, runs, rfl, by simp [splitRuns, h, hsr]⟩

theorem prependRun_nil (runs : List (List Element)) : prependRun [] runs = runs := by
  cases runs <;> simp [prependRun]

/-- The loop of `onPaint` from any iteration on: the canvas receives one stroke per documented
group of the elements still to visit, the first group joined to the open one; when elements
remain, the loop ends with no path open. -/
theorem paintLoop_canvas (size : Nat) (sc ox oy : ℚ) (rest : List Element) :
    ∀ (i : Nat) (st : PaintState) (pending : List Element),
      i + rest.length = size → st.pathBuilder = runPath sc ox oy pending →
      st.pathStarted = (!pending.isEmpty) →
      (paintLoop size sc ox oy i st rest).1.canvas =
          st.canvas ++ (prependRun pending (splitRuns rest)).map (strokeOfRun sc ox oy) ∧
        (rest ≠ [] → (paintLoop size sc ox oy i st rest).1.pathStarted = false ∧
          (paintLoop size sc ox oy i st rest).1.pathBuilder = []) := by
  induction rest with
  | nil =>
    intro i st pending _ _ _
    exact ⟨by simp [paintLoop, splitRuns, prependRun], fun h => absurd rfl h⟩
  | cons e rest ih =>
    intro i st pending hsize hpb hst
    simp only [List.length_cons] at hsize
    simp only [paintLoop]
    cases hfin : (e.split || (i + 1 == size)) with
    | true =>
      obtain ⟨hc, hb, hs⟩ := paintElement_finalize size i sc ox oy st e pending hpb hst hfin
      have hcut : e.split = true ∨ rest = [] := by
        rcases Bool.or_eq_true_iff.1 hfin with h | h
        · exact Or.inl h
        · have : i + 1 = size := by simpa using h
          exact Or.inr (List.length_eq_zero.1 (by omega))
      obtain ⟨ih1, ih2⟩ := ih (i + 1) (paintElement size i sc ox oy st e).1 []
        (by omega) (by rw [hb]; rfl) (by rw [hs]; rfl)
      refine ⟨?_, fun _ => ?_⟩
      · rw [ih1, hc, prependRun_nil, splitRuns_cons_finalize e rest hcut]
        simp [prependRun]
      · by_cases hr : rest = []
        · subst hr
          simp only [paintLoop]
          exact ⟨hs, hb⟩
        · exact ih2 hr
    | false =>
      obtain ⟨hc, hb, hs⟩ := paintElement_continue size i sc ox oy st e pending hpb hst hfin
      obtain ⟨hsplit, hlast⟩ := Bool.or_eq_false_iff.1 hfin
      have hr : rest ≠ [] := by
        intro hnil
        subst hnil
        have : i + 1 = size := by simpa using hsize
        simp [this] at hlast
      obtain ⟨run, runs, hrun, hcons⟩ := splitRuns_cons_continue e rest hsplit hr
      obtain ⟨ih1, ih2⟩ := ih (i + 1) (paintElement size i sc ox oy st e).1 (pending ++ [e])
        (by omega) hb (by rw [hs]; simp)
      refine ⟨?_, fun _ => ih2 hr⟩
      rw [ih1, hc, hcons, hrun]
      simp [prependRun]

theorem back_cons_of_ne_nil (e : Element) (l : List Element) (h : l ≠ []) :
    back (e :: l) = back l := by
  cases l with
  | nil => exact absurd rfl h
  | cons a l => rfl

/-- The documented groups partition the buffer: they concatenate to it, none is empty, no
element before the end of a group has its split flag set, and every group but the last ends at
an element whose split flag is set. -/
theorem splitRuns_partition (l : List Element) :
    (splitRuns l).flatten = l ∧
      (∀ run ∈ splitRuns l, run ≠ [] ∧ ∀ e ∈ run.dropLast, e.split = false) ∧
      (∀ run ∈ (splitRuns l).dropLast, (back run).split = true) := by
  induction l with
  | nil => simp [splitRuns]
  | cons e rest ih =>
    obtain ⟨ih1, ih2, ih3⟩ := ih
    by_cases hcut : e.split = true ∨ rest = []
    · rw [splitRuns_cons_finalize e rest hcut]
      refine ⟨by simp [ih1], ?_, ?_⟩
      · intro run hrun
        rcases List.mem_cons.1 hrun with rfl | hrun
        · simp
        · exact ih2 run hrun
      · intro run hrun
        rcases hcut with hsp | hnil
        · by_cases hr : splitRuns rest = []
          · rw [hr] at hrun; simp at hrun
          · rw [List.dropLast_cons_of_ne_nil hr] at hrun
            rcases List.mem_cons.1 hrun with rfl | hrun
            · exact hsp
            · exact ih3 run hrun
        · subst hnil
          simp [splitRuns] at hrun
    · have hsplit : e.split = false := by
        cases h : e.split with
        | true => exact absurd (Or.inl h) hcut
        | false => rfl
      have hr : rest ≠ [] := fun h => hcut (Or.inr h)
      obtain ⟨run, runs, hrun, hcons⟩ := splitRuns_cons_continue e rest hsplit hr
      rw [hrun] at ih1 ih2 ih3
      rw [hcons]
      have hrne : run ≠ [] := (ih2 run (List.mem_cons_self run runs)).1
      refine ⟨by rw [← ih1]; simp, ?_, ?_⟩
      · intro r hr1
        rcases List.mem_cons.1 hr1 with rfl | hr1
        · refine ⟨by simp, ?_⟩
          intro x hx
          rw [List.dropLast_cons_of_ne_nil hrne] at hx
          rcases List.mem_cons.1 hx with rfl | hx
          · exact hsplit
          · exact (ih2 run (List.mem_cons_self run runs)).2 x hx
        · exact ih2 r (List.mem_cons_of_mem run hr1)
      · intro r hr1
        by_cases hrs : runs = []
        · subst hrs
          simp at hr1
        · rw [List.dropLast_cons_of_ne_nil hrs] at hr1 ih3
          rcases List.mem_cons.1 hr1 with rfl | hr1
          · rw [back_cons_of_ne_nil e run hrne]
            exact ih3 run (List.mem_cons_self _ _)
          · exact ih3 r (List.mem_cons_of_mem _ hr1)

theorem onPaint_drawing (s : MotionMarkLayer) (hne : s.fElements ≠ [])
    (hsc : 0 < uniformScale s) :
    onPaint s =
      ({ s with fElements := (paintAll s).2, fRng := (paintAll s).1.rng },
        (paintAll s).1.canvas) := by
  have h1 : s.fElements.isEmpty = false := by
    cases hl : s.fElements with
    | nil => exact absurd hl hne
    | cons a l => rfl
  have h2 : ¬ uniformScale s ≤ 0 := not_le.2 hsc
  simp only [onPaint, h1, h2, if_false, Bool.false_eq_true]

/-- The canvas calls of a frame that draws: the clear, then one stroke per documented group. -/
theorem onPaint_canvas (s : MotionMarkLayer) (hne : s.fElements ≠ [])
    (hsc : 0 < uniformScale s) :
    (onPaint s).2 =
        CanvasOp.clear backgroundColor ::
          (splitRuns s.fElements).map
            (strokeOfRun (uniformScale s) (paintOffsetX s) (paintOffsetY s)) ∧
      (paintAll s).1.pathStarted = false ∧ (paintAll s).1.pathBuilder = [] := by
  rw [onPaint_drawing s hne hsc]
  obtain ⟨h1, h2⟩ := paintLoop_canvas s.fElements.length (uniformScale s) (paintOffsetX s)
    (paintOffsetY s) s.fElements 0 { canvas := [CanvasOp.clear backgroundColor], rng := s.fRng }
    [] (by simp) rfl rfl
  rw [prependRun_nil] at h1
  exact ⟨h1, h2 hne⟩

theorem uniformScale_pos (s : MotionMarkLayer) (hw : 1 ≤ s.fWidth) (hh : 1 ≤ s.fHeight) :
    0 < uniformScale s := by
  have hw1 : (0 : ℚ) < (s.fWidth : ℚ) := by exact_mod_cast (by omega : 0 < s.fWidth)
  have hh1 : (0 : ℚ) < (s.fHeight : ℚ) := by exact_mod_cast (by omega : 0 < s.fHeight)
  simp only [uniformScale, kGridWidth, kGridHeight]
  apply lt_max_of_lt_right
  apply lt_min
  · exact div_pos hw1 (by norm_num)
  · exact div_pos hh1 (by norm_num)

theorem uniformScale_nonpos (s : MotionMarkLayer) (h : s.fWidth ≤ 0 ∨ s.fHeight ≤ 0) :
    uniformScale s ≤ 0 := by
  simp only [uniformScale, kGridWidth, kGridHeight]
  apply max_le (le_refl _)
  rcases h with h | h
  · have h1 : (s.fWidth : ℚ) ≤ 0 := by exact_mod_cast h
    exact le_trans (min_le_left _ _) (div_nonpos_of_nonpos_of_nonneg h1 (by norm_num))
  · have h1 : (s.fHeight : ℚ) ≤ 0 := by exact_mod_cast h
    exact le_trans (min_le_right _ _) (div_nonpos_of_nonpos_of_nonneg h1 (by norm_num))

theorem uniformScale_sampleLayer : uniformScale sampleLayer = 1280 / 81 := by
  simp only [uniformScale, sampleLayer, kGridWidth, kGridHeight]
  norm_num

theorem uniformScale_singleLayer : uniformScale singleLayer = 1280 / 81 := by
  simp only [uniformScale, singleLayer, kGridWidth, kGridHeight]
  norm_num

theorem drawCalls_strokes (c : SkColor) (f : List Element → CanvasOp)
    (hf : ∀ run, ∃ path col w, f run = CanvasOp.drawPath path col w)
    (runs : List (List Element)) :
    drawCalls (CanvasOp.clear c :: runs.map f) = runs.map f := by
  simp only [drawCalls, List.filter_cons, Bool.false_eq_true, if_false]
  rw [List.filter_eq_self]
  intro op hop
  obtain ⟨run, _, rfl⟩ := List.mem_map.1 hop
  obtain ⟨path, col, w, h⟩ := hf run
  rw [h]

theorem onPaint_drawCalls (s : MotionMarkLayer) (hne : s.fElements ≠ [])
    (hsc : 0 < uniformScale s) :
    drawCalls (onPaint s).2 =
      (splitRuns s.fElements).map
        (strokeOfRun (uniformScale s) (paintOffsetX s) (paintOffsetY s)) := by
  rw [(onPaint_canvas s hne hsc).1]
  exact drawCalls_strokes _ _ (fun run => ⟨_, _, _, rfl⟩) _

/-! ## Claims about the frame renderer -/

theorem toPoint_documented (p : GridPoint) (sc ox oy : ℚ) :
    toPoint p sc ox oy = documentedPixel p sc ox oy := rfl

theorem segmentCmd_documented (sc ox oy : ℚ) (e : Element) :
    segmentCmd e sc ox oy = documentedSegment sc ox oy e := by
  unfold segmentCmd documentedSegment
  cases e.kind <;> simp only [toPoint_documented]

theorem strokeOfRun_documented (sc ox oy : ℚ) (run : List Element) (hne : run ≠ []) :
    strokeOfRun sc ox oy run = documentedStroke sc ox oy run := by
  cases run with
  | nil => exact absurd rfl hne
  | cons first rest =>
    have hseg : (fun e => segmentCmd e sc ox oy) = documentedSegment sc ox oy :=
      funext (segmentCmd_documented sc ox oy)
    simp only [strokeOfRun, runPath, documentedStroke, hseg, toPoint_documented,
      back_eq_getLast (first :: rest) (List.cons_ne_nil first rest)]

theorem isSegment_documented (sc ox oy : ℚ) (e : Element) :
    isSegment (documentedSegment sc ox oy e) = true := by
  unfold documentedSegment
  cases e.kind <;> rfl

theorem pathSegments_documentedStroke (sc ox oy : ℚ) (run : List Element) :
    pathSegments (documentedStroke sc ox oy run) = run.map (documentedSegment sc ox oy) := by
  cases run with
  | nil => rfl
  | cons first rest =>
    simp only [documentedStroke, pathSegments]
    rw [List.filter_cons_of_neg (by simp [isSegment])]
    rw [List.filter_eq_self]
    intro c hc
    obtain ⟨e, _, rfl⟩ := List.mem_map.1 hc
    exact isSegment_documented sc ox oy e

theorem pathSegments_strokes (sc ox oy : ℚ) (runs : List (List Element)) :
    (runs.map (documentedStroke sc ox oy)).flatMap pathSegments =
      runs.flatten.map (documentedSegment sc ox oy) := by
  induction runs with
  | nil => rfl
  | cons run runs ih =>
    simp only [List.map_cons, List.flatMap_cons, List.flatten_cons, List.map_append, ih,
      pathSegments_documentedStroke]

/-- The canvas calls of a frame that draws, in the documented form: the clear, then the
documented stroke of every group. -/
theorem onPaint_documented (s : MotionMarkLayer) (hne : s.fElements ≠ [])
    (hsc : 0 < uniformScale s) :
    (onPaint s).2 =
      CanvasOp.clear backgroundColor ::
        (splitRuns s.fElements).map
          (documentedStroke (uniformScale s) (paintOffsetX s) (paintOffsetY s)) := by
  rw [(onPaint_canvas s hne hsc).1]
  congr 1
  apply List.map_congr_left
  intro run hrun
  exact strokeOfRun_documented _ _ _ run ((splitRuns_partition s.fElements).2.1 run hrun).1

/-- C8. Path assembly partitions the buffer.  For a non-empty buffer and a positive scale the
canvas calls of `onPaint` are the clear followed by one stroked path per group, in order, and
the segments of these paths, concatenated in draw order, are the line, quadratic or cubic
segment of every element of the buffer in order.  The groups concatenate to the buffer, none
is empty, inside a group only the final element may have its split flag (as at the start of
the frame) set, and every group but the last ends at an element with the flag set.  Each path
is a `moveTo` at the first element's start point followed by one segment per element, stroked
with the colour and width of the group's final element; after the last element no path is
open. -/
theorem onPaint_partitions_buffer (s : MotionMarkLayer) (hne : s.fElements ≠ [])
    (hsc : 0 < uniformScale s) :
    (onPaint s).2 =
        CanvasOp.clear backgroundColor ::
          (splitRuns s.fElements).map
            (documentedStroke (uniformScale s) (paintOffsetX s) (paintOffsetY s)) ∧
    (onPaint s).2.flatMap pathSegments =
        s.fElements.map
          (documentedSegment (uniformScale s) (paintOffsetX s) (paintOffsetY s)) ∧
    (drawCalls (onPaint s).2).length = (splitRuns s.fElements).length ∧
    (splitRuns s.fElements).flatten = s.fElements ∧
    (∀ run ∈ splitRuns s.fElements, run ≠ [] ∧ ∀ e ∈ run.dropLast, e.split = false) ∧
    (∀ run ∈ (splitRuns s.fElements).dropLast,
      ∀ hrun : run ≠ [], (run.getLast hrun).split = true) ∧
    (∀ (first : Element) (tail : List Element) (sc ox oy : ℚ),
      documentedStroke sc ox oy (first :: tail) =
        CanvasOp.drawPath
          (PathCmd.moveTo
              { fX := ox + ((first.start.x : ℚ) + 1 / 2) * sc,
                fY := oy + ((first.start.y : ℚ) + 1 / 2) * sc } ::
            (first :: tail).map (documentedSegment sc ox oy))
          ((first :: tail).getLast (List.cons_ne_nil first tail)).color
          ((first :: tail).getLast (List.cons_ne_nil first tail)).width) ∧
    (paintAll s).1.pathStarted = false ∧ (paintAll s).1.pathBuilder = [] := by
  obtain ⟨_, hs, hb⟩ := onPaint_canvas s hne hsc
  obtain ⟨hp1, hp2, hp3⟩ := splitRuns_partition s.fElements
  have hd := onPaint_documented s hne hsc
  refine ⟨hd, ?_, ?_, hp1, hp2, ?_, fun _ _ _ _ _ => rfl, hs, hb⟩
  · rw [hd, List.flatMap_cons, pathSegments_strokes, hp1]
    rfl
  · rw [onPaint_drawCalls s hne hsc, List.length_map]
  · intro run hrun hrne
    rw [← back_eq_getLast run hrne]
    exact hp3 run hrun

theorem onPaint_partitions_buffer_witness :
    sampleLayer.fElements ≠ [] ∧ 0 < uniformScale sampleLayer ∧
    (onPaint sampleLayer).2.flatMap pathSegments =
        sampleLayer.fElements.map
          (documentedSegment (uniformScale sampleLayer) (paintOffsetX sampleLayer)
            (paintOffsetY sampleLayer)) ∧
    (paintAll sampleLayer).1.pathStarted = false :=
  ⟨by simp [sampleLayer], by rw [uniformScale_sampleLayer]; norm_num,
   (onPaint_partitions_buffer sampleLayer (by simp [sampleLayer])
     (by rw [uniformScale_sampleLayer]; norm_num)).2.1,
   (onPaint_partitions_buffer sampleLayer (by simp [sampleLayer])
     (by rw [uniformScale_sampleLayer]; norm_num)).2.2.2.2.2.2.2.1⟩

theorem splitRuns_all_false (l : List Element) (hne : l ≠ [])
    (hall : ∀ e ∈ l, e.split = false) : splitRuns l = [l] := by
  induction l with
  | nil => exact absurd rfl hne
  | cons e rest ih =>
    by_cases hr : rest = []
    · subst hr
      rw [splitRuns_cons_finalize e [] (Or.inr rfl)]
      rfl
    · obtain ⟨run, runs, hrun, hcons⟩ :=
        splitRuns_cons_continue e rest (hall e (List.mem_cons_self e rest)) hr
      rw [ih hr (fun x hx => hall x (List.mem_cons_of_mem e hx))] at hrun
      obtain ⟨rfl, rfl⟩ := List.cons.inj hrun
      exact hcons

theorem setFirstSplit_elements (s : MotionMarkLayer) (e : Element) (rest : List Element)
    (h : s.fElements = e :: rest) :
    (setFirstSplit s).fElements = { e with split := true } :: rest := by
  unfold setFirstSplit
  split
  · rename_i h1; rw [h1] at h; cases h
  · rename_i e1 rest1 h1
    rw [h1] at h
    obtain ⟨rfl, rfl⟩ := List.cons.inj h
    rfl

theorem setFirstSplit_uniformScale (s : MotionMarkLayer) :
    uniformScale (setFirstSplit s) = uniformScale s := by
  unfold setFirstSplit
  split <;> rfl

/-- C9, counterexample. A buffer of a single element with its split flag clear is non-empty
and the scale is positive, yet after setting the first element's split flag `onPaint` issues
one stroked path, not two: the first element is also the last. -/
theorem single_element_one_stroke :
    singleLayer.fElements ≠ [] ∧ (∀ e ∈ singleLayer.fElements, e.split = false) ∧
    0 < uniformScale singleLayer ∧
    (drawCalls (onPaint (setFirstSplit singleLayer)).2).length = 1 := by
  refine ⟨by simp [singleLayer], by simp [singleLayer],
    by rw [uniformScale_singleLayer]; norm_num, ?_⟩
  have hsc : 0 < uniformScale (setFirstSplit singleLayer) := by
    rw [setFirstSplit_uniformScale, uniformScale_singleLayer]; norm_num
  have hel := setFirstSplit_elements singleLayer _ _ rfl
  rw [onPaint_drawCalls _ (by rw [hel]; simp) hsc, hel]
  simp [splitRuns]

/-- C9, amended. For every non-empty buffer (and positive scale) in which all split flags are
false, `onPaint` issues exactly one stroked path and it spans all elements; when the buffer has
at least two elements, setting only the first element's split flag makes `onPaint` issue
exactly two stroked paths. -/
theorem onPaint_stroke_count (s : MotionMarkLayer) (hne : s.fElements ≠ [])
    (hall : ∀ e ∈ s.fElements, e.split = false) (hsc : 0 < uniformScale s) :
    drawCalls (onPaint s).2 =
        [strokeOfRun (uniformScale s) (paintOffsetX s) (paintOffsetY s) s.fElements] ∧
    (2 ≤ s.fElements.length → (drawCalls (onPaint (setFirstSplit s)).2).length = 2) := by
  constructor
  · rw [onPaint_drawCalls s hne hsc, splitRuns_all_false _ hne hall]
    rfl
  · intro hlen
    cases hs : s.fElements with
    | nil => exact absurd hs hne
    | cons e rest =>
      have hr : rest ≠ [] := by
        intro hnil
        rw [hs, hnil] at hlen
        simp at hlen
      have hel := setFirstSplit_elements s e rest hs
      have hsc1 : 0 < uniformScale (setFirstSplit s) := by
        rw [setFirstSplit_uniformScale]; exact hsc
      have hrest : ∀ x ∈ rest, x.split = false := fun x hx =>
        hall x (by rw [hs]; exact List.mem_cons_of_mem e hx)
      rw [onPaint_drawCalls _ (by rw [hel]; simp) hsc1, hel,
        splitRuns_cons_finalize _ rest (Or.inl rfl), splitRuns_all_false rest hr hrest]
      rfl

theorem onPaint_stroke_count_witness :
    pairLayer.fElements ≠ [] ∧ (∀ e ∈ pairLayer.fElements, e.split = false) ∧
    0 < uniformScale pairLayer ∧ 2 ≤ pairLayer.fElements.length ∧
    (drawCalls (onPaint (setFirstSplit pairLayer)).2).length = 2 :=
  ⟨by simp [pairLayer], by simp [pairLayer],
   uniformScale_pos pairLayer (by decide) (by decide), by simp [pairLayer],
   (onPaint_stroke_count pairLayer (by simp [pairLayer]) (by simp [pairLayer])
     (uniformScale_pos pairLayer (by decide) (by decide))).2 (by simp [pairLayer])⟩

theorem onResize_dims (s : MotionMarkLayer) (w h : Int) :
    1 ≤ (onResize s w h).fWidth ∧ 1 ≤ (onResize s w h).fHeight :=
  ⟨le_max_left 1 w, le_max_left 1 h⟩

theorem drawCalls_ne_nil (s : MotionMarkLayer) (hne : s.fElements ≠ [])
    (hsc : 0 < uniformScale s) : drawCalls (onPaint s).2 ≠ [] := by
  rw [onPaint_drawCalls s hne hsc]
  intro h
  exact splitRuns_ne_nil s.fElements hne (List.map_eq_nil_iff.1 h)

/-- C10, counterexample. After `onResize(0, 0)` the stored size is 1x1, not 0x0, and `onPaint`
on the one-element buffer issues one `drawPath` call. -/
theorem zero_size_still_draws :
    singleLayer.fElements ≠ [] ∧
    (onResize singleLayer 0 0).fWidth = 1 ∧ (onResize singleLayer 0 0).fHeight = 1 ∧
    (drawCalls (onPaint (onResize singleLayer 0 0)).2).length = 1 := by
  refine ⟨by simp [singleLayer], rfl, rfl, ?_⟩
  have hsc : 0 < uniformScale (onResize singleLayer 0 0) :=
    uniformScale_pos _ (by decide) (by decide)
  rw [onPaint_drawCalls _ (by simp [onResize, singleLayer]) hsc]
  simp [onResize, singleLayer, splitRuns]

/-- C10, amended. `onResize(w, h)` stores `max(1, w)` and `max(1, h)`, so after it (also with
`w = 0` or `h = 0`) the scale is positive and `onPaint` on a non-empty buffer issues at least
one `drawPath` call.  `onPaint` issues no `drawPath` call, only the background clear, when the
stored width or height is zero or negative, which is a state `onResize` never produces. -/
theorem onResize_then_paint (s : MotionMarkLayer) (w h : Int) (hne : s.fElements ≠ []) :
    (onResize s w h).fWidth = max 1 w ∧ (onResize s w h).fHeight = max 1 h ∧
    0 < uniformScale (onResize s w h) ∧
    drawCalls (onPaint (onResize s w h)).2 ≠ [] ∧
    ((s.fWidth ≤ 0 ∨ s.fHeight ≤ 0) →
      (onPaint s).2 = [CanvasOp.clear backgroundColor] ∧ drawCalls (onPaint s).2 = []) := by
  have hd := onResize_dims s w h
  have hsc := uniformScale_pos (onResize s w h) hd.1 hd.2
  refine ⟨rfl, rfl, hsc, drawCalls_ne_nil _ hne hsc, ?_⟩
  intro hz
  have hle := uniformScale_nonpos s hz
  have hc : (onPaint s).2 = [CanvasOp.clear backgroundColor] := by
    simp only [onPaint, hle, if_true]
    split_ifs <;> rfl
  rw [hc]
  exact ⟨rfl, rfl⟩

theorem onResize_then_paint_witness :
    sampleLayer.fElements ≠ [] ∧
    (onResize sampleLayer 0 720).fWidth = max 1 0 ∧
    drawCalls (onPaint (onResize sampleLayer 0 720)).2 ≠ [] :=
  ⟨by simp [sampleLayer],
   (onResize_then_paint sampleLayer 0 720 (by simp [sampleLayer])).1,
   (onResize_then_paint sampleLayer 0 720 (by simp [sampleLayer])).2.2.2.1⟩

/-! ## Side effects of a frame -/

theorem paintElement_rng (size i : Nat) (sc ox oy : ℚ) (st : PaintState) (e : Element) :
    (paintElement size i sc ox oy st e).1.rng = (fUnitDist st.rng).2 := by
  simp only [paintElement]
  split_ifs <;> rfl

theorem paintElement_elem (size i : Nat) (sc ox oy : ℚ) (st : PaintState) (e : Element) :
    (paintElement size i sc ox oy st e).2 = toggleSplit (fUnitDist st.rng).1 e := by
  simp only [paintElement, toggleSplit]
  split_ifs <;> rfl

theorem paintLoop_toggled (size : Nat) (sc ox oy : ℚ) (l : List Element) :
    ∀ (i : Nat) (st : PaintState),
      (paintLoop size sc ox oy i st l).2 = toggledFrom st.rng l ∧
      (paintLoop size sc ox oy i st l).1.rng = { st.rng with pos := st.rng.pos + l.length } := by
  induction l with
  | nil => intro i st; exact ⟨rfl, rfl⟩
  | cons e rest ih =>
    intro i st
    obtain ⟨ih1, ih2⟩ := ih (i + 1) (paintElement size i sc ox oy st e).1
    simp only [paintLoop, toggledFrom]
    rw [ih1, ih2, paintElement_rng, paintElement_elem]
    refine ⟨rfl, ?_⟩
    simp only [fUnitDist, Rng.draw, List.length_cons]
    congr 1
    omega

theorem toggledFrom_getElem (l : List Element) :
    ∀ (r : Rng) (i : Nat),
      (toggledFrom r l)[i]? =
        (l[i]?).map (toggleSplit (fUnitDist { r with pos := r.pos + i }).1) := by
  induction l with
  | nil => intro r i; simp [toggledFrom]
  | cons e rest ih =>
    intro r i
    cases i with
    | zero => simp [toggledFrom]
    | succ i =>
      simp only [toggledFrom, List.getElem?_cons_succ]
      rw [ih]
      simp only [fUnitDist, Rng.draw]
      have : r.pos + 1 + i = r.pos + (i + 1) := by omega
      rw [this]

/-- The buffer and the engine after a frame that draws, or after a frame on an empty buffer. -/
theorem onPaint_elements (s : MotionMarkLayer) (hsc : 0 < uniformScale s) :
    (onPaint s).1.fElements = toggledFrom s.fRng s.fElements ∧
      (onPaint s).1.fRng = { s.fRng with pos := s.fRng.pos + s.fElements.length } := by
  by_cases hne : s.fElements = []
  · have h1 : s.fElements.isEmpty = true := by rw [hne]; rfl
    have ho : onPaint s = (s, [CanvasOp.clear backgroundColor]) := by
      simp only [onPaint, h1, if_true]
    rw [ho, hne]
    exact ⟨rfl, rfl⟩
  · rw [onPaint_drawing s hne hsc]
    exact paintLoop_toggled _ _ _ _ _ _ _

theorem toggleSplit_fields (u : ℚ) (e : Element) :
    (toggleSplit u e).kind = e.kind ∧ (toggleSplit u e).start = e.start ∧
      (toggleSplit u e).control1 = e.control1 ∧ (toggleSplit u e).control2 = e.control2 ∧
      (toggleSplit u e).end_ = e.end_ ∧ (toggleSplit u e).color = e.color ∧
      (toggleSplit u e).width = e.width ∧
      (toggleSplit u e).split = (if u > kSplitToggleThreshold then !e.split else e.split) := by
  unfold toggleSplit
  split_ifs <;> exact ⟨rfl, rfl, rfl, rfl, rfl, rfl, rfl, rfl⟩

theorem onPaint_returns_early (s : MotionMarkLayer)
    (h : s.fElements = [] ∨ uniformScale s ≤ 0) : (onPaint s).1 = s := by
  simp only [onPaint]
  split_ifs with h1 h2
  · rfl
  · rfl
  · rcases h with h | h
    · rw [h] at h1; exact absurd rfl h1
    · exact absurd h h2

theorem frameDraw_thresholdLayer : frameDraw thresholdLayer 0 = 16693330 / 16777216 := by
  simp only [frameDraw, fUnitDist, Rng.draw, thresholdLayer, thresholdRng]
  norm_num

theorem frameDraw_zeroWidthLayer : frameDraw zeroWidthLayer 0 = 16777215 / 16777216 := by
  simp only [frameDraw, fUnitDist, Rng.draw, zeroWidthLayer]
  norm_num

/-- C12, counterexample. On the default 1280x720 viewport the draw `16693330 / 2^24` is greater
than 0.995, yet `onPaint` leaves the split flag of the element as it was: the draw equals the
`float` literal `0.995f` and does not exceed it.  And on a stored width of 0 a draw greater
than 0.995 flips nothing either, because the frame returns before the loop and consumes no
draw. -/
theorem draw_above_0995_not_flipped :
    frameDraw thresholdLayer 0 = 16693330 / 16777216 ∧
    (995 / 1000 : ℚ) < frameDraw thresholdLayer 0 ∧
    thresholdLayer.fElements.map (fun e => e.split) = [false] ∧
    (onPaint thresholdLayer).1.fElements.map (fun e => e.split) = [false] ∧
    (995 / 1000 : ℚ) < frameDraw zeroWidthLayer 0 ∧
    zeroWidthLayer.fElements.map (fun e => e.split) = [false] ∧
    (onPaint zeroWidthLayer).1.fElements.map (fun e => e.split) = [false] ∧
    (onPaint zeroWidthLayer).1.fRng.pos = zeroWidthLayer.fRng.pos := by
  have hsc : 0 < uniformScale thresholdLayer :=
    uniformScale_pos thresholdLayer (by decide) (by decide)
  have hearly : (onPaint zeroWidthLayer).1 = zeroWidthLayer :=
    onPaint_returns_early zeroWidthLayer
      (Or.inr (uniformScale_nonpos zeroWidthLayer (Or.inl (by decide))))
  refine ⟨frameDraw_thresholdLayer, by rw [frameDraw_thresholdLayer]; norm_num, rfl, ?_,
    by rw [frameDraw_zeroWidthLayer]; norm_num, rfl, by rw [hearly]; rfl, by rw [hearly]⟩
  rw [(onPaint_elements thresholdLayer hsc).1]
  have hu : (fUnitDist thresholdLayer.fRng).1 = 16693330 / 16777216 := by
    simp only [fUnitDist, Rng.draw, thresholdLayer, thresholdRng]
    norm_num
  have hnot : ¬ ((16693330 / 16777216 : ℚ) > kSplitToggleThreshold) := by
    norm_num [kSplitToggleThreshold]
  simp only [thresholdLayer, toggledFrom, List.map_cons, List.map_nil] at hu ⊢
  simp only [toggleSplit, hu, hnot, if_false]

/-- C12, amended. Paint side effects are confined to split flags.  On a stored viewport of
width and height at least 1 (what the constructor and `onResize` give), after `onPaint` the
buffer has the same length; the element at every index `i` keeps its kind, start, control
points, end, colour and width, and its split flag is flipped exactly when the draw `u_i` of
the frame exceeds the `float` literal `0.995f` (which is `16693330 / 2^24`, within `2^-25` of
0.995); the engine has advanced by one draw per element.  On a stored width or height of zero
or less the frame changes nothing and consumes no draw. -/
theorem onPaint_toggles_only (s : MotionMarkLayer) (hw : 1 ≤ s.fWidth) (hh : 1 ≤ s.fHeight) :
    (onPaint s).1.fElements.length = s.fElements.length ∧
    (∀ (i : Nat) (e : Element), s.fElements[i]? = some e →
      ∃ e1 : Element, (onPaint s).1.fElements[i]? = some e1 ∧
        e1.kind = e.kind ∧ e1.start = e.start ∧ e1.control1 = e.control1 ∧
        e1.control2 = e.control2 ∧ e1.end_ = e.end_ ∧ e1.color = e.color ∧
        e1.width = e.width ∧
        e1.split = (if frameDraw s i > kSplitToggleThreshold then !e.split else e.split)) ∧
    (onPaint s).1.fRng.pos = s.fRng.pos + s.fElements.length ∧
    (onPaint s).1.fRng.stream = s.fRng.stream ∧
    kSplitToggleThreshold = 16693330 / 2 ^ 24 ∧
    |kSplitToggleThreshold - 995 / 1000| ≤ 1 / 2 ^ 25 ∧
    (∀ t : MotionMarkLayer, (t.fWidth ≤ 0 ∨ t.fHeight ≤ 0) → (onPaint t).1 = t) := by
  obtain ⟨hel, hrng⟩ := onPaint_elements s (uniformScale_pos s hw hh)
  refine ⟨(onPaint_same s).length_eq.symm, ?_, by rw [hrng], by rw [hrng],
    by norm_num [kSplitToggleThreshold],
    by rw [abs_le]; constructor <;> norm_num [kSplitToggleThreshold],
    fun t ht => onPaint_returns_early t (Or.inr (uniformScale_nonpos t ht))⟩
  intro i e he
  refine ⟨toggleSplit (frameDraw s i) e, ?_, toggleSplit_fields _ e⟩
  rw [hel, toggledFrom_getElem, he]
  rfl

theorem onPaint_toggles_only_witness :
    (1 : Int) ≤ sampleLayer.fWidth ∧ (1 : Int) ≤ sampleLayer.fHeight ∧
    (onPaint sampleLayer).1.fElements.length = sampleLayer.fElements.length ∧
    (onPaint sampleLayer).1.fRng.pos = sampleLayer.fRng.pos + sampleLayer.fElements.length :=
  ⟨by decide, by decide,
   (onPaint_toggles_only sampleLayer (by decide) (by decide)).1,
   (onPaint_toggles_only sampleLayer (by decide) (by decide)).2.2.1⟩

/-! ## Random-walk steps of a new element -/

theorem randomPoint_isStep (r : Rng) (p : GridPoint) : IsStep p (randomPoint r p).1 := by
  have hr := uniformIntDist_range 0 (kOffsets.length - 1) r (by decide)
  have hlt : (uniformIntDist 0 (kOffsets.length - 1) r).1 < 4 := by
    have : kOffsets.length - 1 = 3 := by decide
    omega
  exact ⟨_, offset_mem _ hlt, rfl⟩

/-- C14, counterexample. With raw draws 3, 1, 0, 1 from the grid centre the element is a cubic
with control1 = (42,20), control2 = (38,20) and end = (44,20): the end point is one step from
control1 and is not one step from control2. -/
theorem cubic_end_not_step_from_control2 :
    (createRandomElement cubicRng gridCentre).1.kind = SegmentKind.kCubic ∧
    (createRandomElement cubicRng gridCentre).1.control1 = { x := 42, y := 20 } ∧
    (createRandomElement cubicRng gridCentre).1.control2 = { x := 38, y := 20 } ∧
    (createRandomElement cubicRng gridCentre).1.end_ = { x := 44, y := 20 } ∧
    ¬ IsStep (createRandomElement cubicRng gridCentre).1.control2
        (createRandomElement cubicRng gridCentre).1.end_ := by
  decide

/-- C14, amended. For every element synthesised by `createRandomElement` from cursor `p`: the
start is `p`; a Line has end = one step from `p`; a Quad has control1 = one step from `p` and
end = one step from control1; a Cubic has control1 = one step from `p`, control2 = one step
from control1, and end = one step from control1 as well (a second step taken from control1,
not from control2). -/
theorem createRandomElement_steps (r : Rng) (p : GridPoint) :
    (createRandomElement r p).1.start = p ∧
    ((createRandomElement r p).1.kind = SegmentKind.kLine →
      IsStep p (createRandomElement r p).1.end_) ∧
    ((createRandomElement r p).1.kind = SegmentKind.kQuad →
      IsStep p (createRandomElement r p).1.control1 ∧
      IsStep (createRandomElement r p).1.control1 (createRandomElement r p).1.end_) ∧
    ((createRandomElement r p).1.kind = SegmentKind.kCubic →
      IsStep p (createRandomElement r p).1.control1 ∧
      IsStep (createRandomElement r p).1.control1 (createRandomElement r p).1.control2 ∧
      IsStep (createRandomElement r p).1.control1 (createRandomElement r p).1.end_) := by
  refine ⟨createRandomElement_start r p, ?_⟩
  simp only [createRandomElement]
  split_ifs <;> simp [randomPoint_isStep]

/-! ## The reflection rule -/

/-- C15. Reflection rule of `randomPoint`: for every point and each of the four offsets
`(dx, dy)`, the new x is `x+dx` when `0 <= x+dx <= 80` and `x-dx` otherwise, and independently
the new y is `y+dy` when `0 <= y+dy <= 40` and `y-dy` otherwise; the point moves by exactly
`|dx|` in x and `|dy|` in y and never stays where it was.  Every `randomPoint` result is such a
step. -/
theorem reflection_rule (p : GridPoint) (dx dy : Int) (hmem : (dx, dy) ∈ kOffsets) :
    (reflectStep p dx dy).x = (if 0 ≤ p.x + dx ∧ p.x + dx ≤ 80 then p.x + dx else p.x - dx) ∧
    (reflectStep p dx dy).y = (if 0 ≤ p.y + dy ∧ p.y + dy ≤ 40 then p.y + dy else p.y - dy) ∧
    |(reflectStep p dx dy).x - p.x| = |dx| ∧
    |(reflectStep p dx dy).y - p.y| = |dy| ∧
    reflectStep p dx dy ≠ p ∧
    (∀ r : Rng, ∃ d ∈ kOffsets, (randomPoint r p).1 = reflectStep p d.1 d.2) := by
  have hx : (reflectStep p dx dy).x =
      (if 0 ≤ p.x + dx ∧ p.x + dx ≤ 80 then p.x + dx else p.x - dx) := by
    simp only [reflectStep, kGridWidth]
    split_ifs <;> omega
  have hy : (reflectStep p dx dy).y =
      (if 0 ≤ p.y + dy ∧ p.y + dy ≤ 40 then p.y + dy else p.y - dy) := by
    simp only [reflectStep, kGridHeight]
    split_ifs <;> omega
  have hdx : dx ≠ 0 := by
    simp only [kOffsets, List.mem_cons, Prod.mk.injEq, List.mem_singleton, List.not_mem_nil,
      or_false] at hmem
    omega
  refine ⟨hx, hy, ?_, ?_, ?_, fun r => randomPoint_isStep r p⟩
  · rw [hx, abs_eq_abs]
    split_ifs <;> omega
  · rw [hy, abs_eq_abs]
    split_ifs <;> omega
  · intro heq
    have h1 := congrArg GridPoint.x heq
    rw [hx] at h1
    split_ifs at h1 <;> omega

theorem reflection_rule_witness :
    ((2 : Int), (0 : Int)) ∈ kOffsets ∧
    (reflectStep { x := 79, y := 20 } 2 0).x = 77 ∧
    reflectStep { x := 79, y := 20 } 2 0 ≠ { x := 79, y := 20 } :=
  ⟨by decide,
   (reflection_rule { x := 79, y := 20 } 2 0 (by decide)).1,
   (reflection_rule { x := 79, y := 20 } 2 0 (by decide)).2.2.2.2.1⟩

/-! ## The grid is centred in the viewport -/

theorem uniformScale_eq_min (s : MotionMarkLayer) (hw : 1 ≤ s.fWidth) (hh : 1 ≤ s.fHeight) :
    uniformScale s = min ((s.fWidth : ℚ) / 81) ((s.fHeight : ℚ) / 41) := by
  have hw1 : (0 : ℚ) < (s.fWidth : ℚ) := by exact_mod_cast (by omega : 0 < s.fWidth)
  have hh1 : (0 : ℚ) < (s.fHeight : ℚ) := by exact_mod_cast (by omega : 0 < s.fHeight)
  have hpos : (0 : ℚ) ≤ min ((s.fWidth : ℚ) / 81) ((s.fHeight : ℚ) / 41) :=
    le_min (by positivity) (by positivity)
  simp only [uniformScale, kGridWidth, kGridHeight]
  norm_num
  exact le_min_iff.1 hpos

theorem pixel_bounds (x : Int) (sc off w : ℚ) (n : ℚ) (hx0 : 0 ≤ x) (hxn : (x : ℚ) ≤ n)
    (hsc : 0 ≤ sc) (hoff : 0 ≤ off) (hw : w = 2 * off + (n + 1) * sc) :
    0 ≤ off + ((x : ℚ) + 1 / 2) * sc ∧ off + ((x : ℚ) + 1 / 2) * sc ≤ w := by
  have hx : (0 : ℚ) ≤ (x : ℚ) := by exact_mod_cast hx0
  have h1 : 0 ≤ ((x : ℚ) + 1 / 2) * sc := mul_nonneg (by linarith) hsc
  have h2 : ((x : ℚ) + 1 / 2) * sc ≤ (n + 1 / 2) * sc :=
    mul_le_mul_of_nonneg_right (by linarith) hsc
  constructor
  · linarith
  · rw [hw]; nlinarith

/-- C16. The grid is centred inside the viewport.  For every stored width and height of at
least 1, the scale is `min(width/81, height/41)`, the offsets are `(width - 81*scale)/2` and
`(height - 41*scale)/2`, both are non-negative and at least one is zero; every grid point of
`[0,80] x [0,40]` maps to a pixel with `0 <= px <= width` and `0 <= py <= height`; and the
margin left of grid x=0 equals the margin right of grid x=80, likewise top and bottom. -/
theorem grid_centred (s : MotionMarkLayer) (hw : 1 ≤ s.fWidth) (hh : 1 ≤ s.fHeight) :
    uniformScale s = min ((s.fWidth : ℚ) / 81) ((s.fHeight : ℚ) / 41) ∧
    paintOffsetX s = ((s.fWidth : ℚ) - 81 * uniformScale s) / 2 ∧
    paintOffsetY s = ((s.fHeight : ℚ) - 41 * uniformScale s) / 2 ∧
    0 ≤ paintOffsetX s ∧ 0 ≤ paintOffsetY s ∧
    (paintOffsetX s = 0 ∨ paintOffsetY s = 0) ∧
    (∀ pt : GridPoint, 0 ≤ pt.x → pt.x ≤ 80 → 0 ≤ pt.y → pt.y ≤ 40 →
      0 ≤ (toPoint pt (uniformScale s) (paintOffsetX s) (paintOffsetY s)).fX ∧
      (toPoint pt (uniformScale s) (paintOffsetX s) (paintOffsetY s)).fX ≤ (s.fWidth : ℚ) ∧
      0 ≤ (toPoint pt (uniformScale s) (paintOffsetX s) (paintOffsetY s)).fY ∧
      (toPoint pt (uniformScale s) (paintOffsetX s) (paintOffsetY s)).fY ≤ (s.fHeight : ℚ)) ∧
    (∀ y : Int,
      (toPoint { x := 0, y := y } (uniformScale s) (paintOffsetX s) (paintOffsetY s)).fX - 0 =
        (s.fWidth : ℚ) -
          (toPoint { x := 80, y := y } (uniformScale s) (paintOffsetX s) (paintOffsetY s)).fX) ∧
    (∀ x : Int,
      (toPoint { x := x, y := 0 } (uniformScale s) (paintOffsetX s) (paintOffsetY s)).fY - 0 =
        (s.fHeight : ℚ) -
          (toPoint { x := x, y := 40 } (uniformScale s) (paintOffsetX s) (paintOffsetY s)).fY) := by
  have hmin := uniformScale_eq_min s hw hh
  have hpos := uniformScale_pos s hw hh
  have hox : paintOffsetX s = ((s.fWidth : ℚ) - 81 * uniformScale s) / 2 := by
    simp only [paintOffsetX, kGridWidth]; push_cast; ring
  have hoy : paintOffsetY s = ((s.fHeight : ℚ) - 41 * uniformScale s) / 2 := by
    simp only [paintOffsetY, kGridHeight]; push_cast; ring
  have hlx : uniformScale s ≤ (s.fWidth : ℚ) / 81 := by rw [hmin]; exact min_le_left _ _
  have hly : uniformScale s ≤ (s.fHeight : ℚ) / 41 := by rw [hmin]; exact min_le_right _ _
  have hx81 : 81 * uniformScale s ≤ (s.fWidth : ℚ) := by
    have := (le_div_iff₀ (by norm_num : (0 : ℚ) < 81)).1 hlx
    linarith
  have hy41 : 41 * uniformScale s ≤ (s.fHeight : ℚ) := by
    have := (le_div_iff₀ (by norm_num : (0 : ℚ) < 41)).1 hly
    linarith
  have hox0 : 0 ≤ paintOffsetX s := by rw [hox]; linarith
  have hoy0 : 0 ≤ paintOffsetY s := by rw [hoy]; linarith
  refine ⟨hmin, hox, hoy, hox0, hoy0, ?_, ?_, ?_, ?_⟩
  · rcases min_choice ((s.fWidth : ℚ) / 81) ((s.fHeight : ℚ) / 41) with h | h
    · left
      rw [hox, hmin, h]; ring
    · right
      rw [hoy, hmin, h]; ring
  · intro pt hx0 hx1 hy0 hy1
    have hxq : ((pt.x : Int) : ℚ) ≤ 80 := by exact_mod_cast hx1
    have hyq : ((pt.y : Int) : ℚ) ≤ 40 := by exact_mod_cast hy1
    obtain ⟨a1, a2⟩ := pixel_bounds pt.x (uniformScale s) (paintOffsetX s) (s.fWidth : ℚ) 80
      hx0 hxq (le_of_lt hpos) hox0 (by rw [hox]; ring)
    obtain ⟨b1, b2⟩ := pixel_bounds pt.y (uniformScale s) (paintOffsetY s) (s.fHeight : ℚ) 40
      hy0 hyq (le_of_lt hpos) hoy0 (by rw [hoy]; ring)
    exact ⟨a1, a2, b1, b2⟩
  · intro y
    simp only [toPoint]
    rw [hox]; push_cast; ring
  · intro x
    simp only [toPoint]
    rw [hoy]; push_cast; ring

theorem grid_centred_witness :
    (1 : Int) ≤ sampleLayer.fWidth ∧ (1 : Int) ≤ sampleLayer.fHeight ∧
    0 ≤ paintOffsetX sampleLayer ∧ 0 ≤ paintOffsetY sampleLayer ∧
    (paintOffsetX sampleLayer = 0 ∨ paintOffsetY sampleLayer = 0) :=
  ⟨by decide, by decide,
   (grid_centred sampleLayer (by decide) (by decide)).2.2.2.1,
   (grid_centred sampleLayer (by decide) (by decide)).2.2.2.2.1,
   (grid_centred sampleLayer (by decide) (by decide)).2.2.2.2.2.1⟩

/-! ## Calls that change nothing, and frames that always draw -/

theorem computeElementCount_saturated (a : Int) (h : 20 ≤ a) :
    computeElementCount (clamp a 0 24) = 120000 := by
  have hr : 20 ≤ clamp a 0 24 := by
    unfold clamp
    split_ifs <;> omega
  rw [computeElementCount_high _ (by omega)]
  omega

/-- C17. No-op if the target count equals the current count: in every reachable state, a
`setComplexity` whose target element count is the current buffer length leaves the element
buffer and the cursor unchanged and consumes no random draw.  The same level again is such a
call, and so is any move between levels of 20 and above, which all map to 120000. -/
theorem setComplexity_noop (s : MotionMarkLayer) (level : Int) (h : Reachable s)
    (hc : computeElementCount (clamp level 0 24) = (s.fElements.length : Int)) :
    (setComplexity s level).fElements = s.fElements ∧
    (setComplexity s level).fLastGridPoint = s.fLastGridPoint ∧
    (setComplexity s level).fRng = s.fRng ∧
    setComplexity s s.fComplexity = s ∧
    computeElementCount (clamp s.fComplexity 0 24) = (s.fElements.length : Int) ∧
    (∀ a : Int, 20 ≤ a → computeElementCount (clamp a 0 24) = 120000) := by
  have hi := h.inv
  have hsame : clamp s.fComplexity 0 24 = s.fComplexity :=
    clamp_of_range _ hi.level_lo hi.level_hi
  refine ⟨?_, ?_, ?_, setComplexity_unchanged s _ hsame, by rw [hsame]; exact hi.count.symm,
    computeElementCount_saturated⟩
  all_goals
    by_cases h1 : clamp level 0 24 = s.fComplexity
    · rw [setComplexity_unchanged s level h1]
    · rw [setComplexity_changed s level h1,
        resizeElements_same { s with fComplexity := clamp level 0 24 } _ hc]

theorem setComplexity_noop_witness :
    Reachable (construct zeroRng) ∧
    computeElementCount (clamp 8 0 24) = ((construct zeroRng).fElements.length : Int) ∧
    (setComplexity (construct zeroRng) 8).fElements = (construct zeroRng).fElements :=
  ⟨Reachable.construct zeroRng,
   by rw [(inv_construct zeroRng).count, construct_complexity]; decide,
   (setComplexity_noop (construct zeroRng) 8 (Reachable.construct zeroRng)
     (by rw [(inv_construct zeroRng).count, construct_complexity]; decide)).1⟩

theorem onPaint_no_draw (s : MotionMarkLayer) (h : s.fElements = [] ∨ uniformScale s ≤ 0) :
    (onPaint s).2 = [CanvasOp.clear backgroundColor] := by
  simp only [onPaint]
  split_ifs with h1 h2
  · rfl
  · rfl
  · rcases h with h | h
    · rw [h] at h1; exact absurd rfl h1
    · exact absurd h h2

/-- C18. The draw calls of a frame do not depend on the uniform draws: two runs of `onPaint`
from the same buffer and viewport with different engines issue the same canvas calls (same
paths, colours and widths).  The draws only reach the layer through the split flags it stores
for later frames: every other field of every element, the cursor, the complexity and the
viewport are unchanged by the frame. -/
theorem onPaint_calls_independent (s : MotionMarkLayer) (r1 r2 : Rng) :
    (onPaint { s with fRng := r1 }).2 = (onPaint { s with fRng := r2 }).2 ∧
    List.Forall₂ sameExceptSplit s.fElements (onPaint { s with fRng := r1 }).1.fElements ∧
    (onPaint { s with fRng := r1 }).1.fLastGridPoint = s.fLastGridPoint ∧
    (onPaint { s with fRng := r1 }).1.fComplexity = s.fComplexity ∧
    (onPaint { s with fRng := r1 }).1.fWidth = s.fWidth ∧
    (onPaint { s with fRng := r1 }).1.fHeight = s.fHeight := by
  refine ⟨?_, onPaint_same { s with fRng := r1 }, onPaint_fields { s with fRng := r1 }⟩
  by_cases hd : s.fElements = [] ∨ uniformScale s ≤ 0
  · rw [onPaint_no_draw { s with fRng := r1 } hd, onPaint_no_draw { s with fRng := r2 } hd]
  · have hne : s.fElements ≠ [] := fun h => hd (Or.inl h)
    have hsc : 0 < uniformScale s := not_le.1 (fun h => hd (Or.inr h))
    rw [(onPaint_canvas { s with fRng := r1 } hne hsc).1,
      (onPaint_canvas { s with fRng := r2 } hne hsc).1]
    rfl

theorem setComplexity_dims (s : MotionMarkLayer) (level : Int) :
    (setComplexity s level).fWidth = s.fWidth ∧ (setComplexity s level).fHeight = s.fHeight := by
  by_cases h1 : clamp level 0 24 = s.fComplexity
  · rw [setComplexity_unchanged s level h1]; exact ⟨rfl, rfl⟩
  · rw [setComplexity_changed s level h1]
    exact (resizeElements_fields _ _).2

theorem construct_dims (rng : Rng) :
    (construct rng).fWidth = 1280 ∧ (construct rng).fHeight = 720 :=
  (resizeElements_fields { fRng := rng } (computeElementCount 8)).2

theorem reachable_dims (s : MotionMarkLayer) (h : Reachable s) :
    1 ≤ s.fWidth ∧ 1 ≤ s.fHeight := by
  induction h with
  | construct rng =>
    rw [(construct_dims rng).1, (construct_dims rng).2]
    exact ⟨by decide, by decide⟩
  | setComplexity s level _ ih =>
    rw [(setComplexity_dims s level).1, (setComplexity_dims s level).2]; exact ih
  | onResize s w ht _ _ => exact onResize_dims s w ht
  | onPaint s _ ih =>
    rw [(onPaint_fields s).2.2.1, (onPaint_fields s).2.2.2]; exact ih

/-- C19. Every paint draws: in every reachable layer state the buffer holds at least 1000
elements and the stored width and height are at least 1, so the uniform scale is strictly
positive, neither early return of `onPaint` is taken (the frame runs the loop over the whole
buffer), and `onPaint` issues at least one `drawPath` call. -/
theorem every_paint_draws (s : MotionMarkLayer) (h : Reachable s) :
    1000 ≤ s.fElements.length ∧ 1 ≤ s.fWidth ∧ 1 ≤ s.fHeight ∧
    0 < uniformScale s ∧
    s.fElements.isEmpty = false ∧ ¬ (uniformScale s ≤ 0) ∧
    onPaint s =
      ({ s with fElements := (paintAll s).2, fRng := (paintAll s).1.rng },
        (paintAll s).1.canvas) ∧
    drawCalls (onPaint s).2 ≠ [] := by
  have hi := h.inv
  have hd := reachable_dims s h
  have hpos := computeElementCount_pos s.fComplexity hi.level_lo
  have hlen : 1000 ≤ s.fElements.length := by
    have hc := hi.count
    omega
  have hne : s.fElements ≠ [] := by
    intro hnil; rw [hnil] at hlen; simp at hlen
  have hsc := uniformScale_pos s hd.1 hd.2
  have hemp : s.fElements.isEmpty = false := by
    cases hl : s.fElements with
    | nil => exact absurd hl hne
    | cons a l => rfl
  exact ⟨hlen, hd.1, hd.2, hsc, hemp, not_le.2 hsc, onPaint_drawing s hne hsc,
    drawCalls_ne_nil s hne hsc⟩

theorem every_paint_draws_witness :
    Reachable (onResize (construct zeroRng) 0 0) ∧
    drawCalls (onPaint (onResize (construct zeroRng) 0 0)).2 ≠ [] :=
  ⟨Reachable.onResize _ 0 0 (Reachable.construct zeroRng),
   (every_paint_draws (onResize (construct zeroRng) 0 0)
     (Reachable.onResize _ 0 0 (Reachable.construct zeroRng))).2.2.2.2.2.2.2⟩

/-! ## Reading the command line -/

theorem digitChar_facts (d : Nat) (h : d < 10) :
    (Nat.digitChar d).isDigit = true ∧ (Nat.digitChar d).toNat - 48 = d ∧
      isSpaceChar (Nat.digitChar d) = false ∧ Nat.digitChar d ≠ '-' ∧
      Nat.digitChar d ≠ '+' := by
  interval_cases d <;> decide

theorem digitsValue_toDigitsCore (fuel : Nat) :
    ∀ (n : Nat) (ds : List Char), n < fuel →
      digitsValue 0 (Nat.toDigitsCore 10 fuel n ds) = digitsValue n ds := by
  induction fuel with
  | zero => intro n ds h; omega
  | succ fuel ih =>
    intro n ds h
    obtain ⟨hd, hv, _, _, _⟩ := digitChar_facts (n % 10) (Nat.mod_lt n (by decide))
    simp only [Nat.toDigitsCore]
    split_ifs with h0
    · have hn : n % 10 = n := by omega
      simp only [digitsValue, hd, if_true, hv, Nat.zero_mul, Nat.zero_add]
      rw [hn]
    · rw [ih (n / 10) _ (by omega)]
      simp only [digitsValue, hd, if_true, hv]
      congr 1
      omega

theorem toDigitsCore_head (fuel : Nat) :
    ∀ (n : Nat) (ds : List Char),
      ∃ d tail, d < 10 ∧ Nat.toDigitsCore 10 (fuel + 1) n ds = Nat.digitChar d :: tail := by
  induction fuel with
  | zero =>
    intro n ds
    refine ⟨n % 10, ds, Nat.mod_lt n (by decide), ?_⟩
    simp only [Nat.toDigitsCore]
    split_ifs <;> rfl
  | succ fuel ih =>
    intro n ds
    by_cases h0 : n / 10 = 0
    · refine ⟨n % 10, ds, Nat.mod_lt n (by decide), ?_⟩
      rw [Nat.toDigitsCore]
      simp only [h0, if_true]
    · obtain ⟨d, tail, hd, heq⟩ := ih (n / 10) (Nat.digitChar (n % 10) :: ds)
      refine ⟨d, tail, hd, ?_⟩
      rw [Nat.toDigitsCore]
      simp only [h0, if_false]
      exact heq

theorem atoi_toDigits (m : Nat) : atoi (Nat.toDigits 10 m) = (m : Int) := by
  have hv : digitsValue 0 (Nat.toDigits 10 m) = m := by
    unfold Nat.toDigits
    rw [digitsValue_toDigitsCore (m + 1) m [] (by omega)]
    rfl
  obtain ⟨d, tail, hd, heq⟩ := toDigitsCore_head m m []
  have heq1 : Nat.toDigits 10 m = Nat.digitChar d :: tail := heq
  obtain ⟨_, _, hsp, hminus, hplus⟩ := digitChar_facts d hd
  rw [heq1] at hv
  rw [heq1]
  simp only [atoi, List.dropWhile_cons, hsp, Bool.false_eq_true, if_false, hminus, hplus, hv]

theorem atoi_minus_toDigits (m : Nat) : atoi ('-' :: Nat.toDigits 10 m) = -(m : Int) := by
  have hv : digitsValue 0 (Nat.toDigits 10 m) = m := by
    unfold Nat.toDigits
    rw [digitsValue_toDigitsCore (m + 1) m [] (by omega)]
    rfl
  have hsp : isSpaceChar '-' = false := by decide
  simp only [atoi, List.dropWhile_cons, hsp, Bool.false_eq_true, if_false, if_true, hv]

/-- Reading the decimal numeral of an integer with `atoi` gives the integer back. -/
theorem atoi_decimal (n : Int) : atoi (decimal n) = n := by
  unfold decimal
  split_ifs with h
  · rw [atoi_minus_toDigits]; omega
  · rw [atoi_toDigits]; omega

theorem strncmpEq_iff (a : List Char) :
    strncmpEq a kPrefix kPrefix.length = true ↔ kPrefix <+: a := by
  unfold strncmpEq
  rw [List.take_length, beq_iff_eq, List.prefix_iff_eq_take]
  exact eq_comm

theorem parseComplexityLoop_first (pre : List (List Char)) (a : List Char)
    (post : List (List Char)) (hpre : ∀ x ∈ pre, ¬ kPrefix <+: x) (ha : kPrefix <+: a) :
    parseComplexityLoop (pre ++ a :: post) = atoi (a.drop kPrefix.length) := by
  induction pre with
  | nil =>
    simp only [List.nil_append, parseComplexityLoop, (strncmpEq_iff a).2 ha, if_true]
  | cons x pre ih =>
    have hx : strncmpEq x kPrefix kPrefix.length = false := by
      cases h : strncmpEq x kPrefix kPrefix.length with
      | true => exact absurd ((strncmpEq_iff x).1 h) (hpre x (List.mem_cons_self x pre))
      | false => rfl
    simp only [List.cons_append, parseComplexityLoop, hx, Bool.false_eq_true, if_false]
    exact ih (fun y hy => hpre y (List.mem_cons_of_mem x hy))

theorem parseComplexityLoop_none (args : List (List Char))
    (h : ∀ x ∈ args, ¬ kPrefix <+: x) : parseComplexityLoop args = -1 := by
  induction args with
  | nil => rfl
  | cons x args ih =>
    have hx : strncmpEq x kPrefix kPrefix.length = false := by
      cases h1 : strncmpEq x kPrefix kPrefix.length with
      | true => exact absurd ((strncmpEq_iff x).1 h1) (h x (List.mem_cons_self x args))
      | false => rfl
    simp only [parseComplexityLoop, hx, Bool.false_eq_true, if_false]
    exact ih (fun y hy => h y (List.mem_cons_of_mem x hy))

/-! ## Start-up -/

theorem construct_length (rng : Rng) : (construct rng).fElements.length = 9000 := by
  have hc := (inv_construct rng).count
  rw [construct_complexity] at hc
  have h9 : computeElementCount 8 = 9000 := by decide
  rw [h9] at hc
  exact_mod_cast hc

theorem onResize_complexity (s : MotionMarkLayer) (w h : Int) :
    (onResize s w h).fComplexity = s.fComplexity := rfl

theorem onResize_elements (s : MotionMarkLayer) (w h : Int) :
    (onResize s w h).fElements = s.fElements := rfl

theorem createdLayer_attached (argv : List (List Char)) (w : Window) (rng : Rng)
    (hw : w.attaches = true) :
    createdLayer argv (some w) rng =
      some (onResize
        (if parseComplexityArg argv ≥ 0 then setComplexity (construct rng) (parseComplexityArg argv)
         else construct rng) w.width w.height) := by
  simp only [createdLayer, create, init, constructApplication, hw, Bool.not_true,
    Bool.false_eq_true, if_false, if_true, Option.bind_some, Option.some_bind]

theorem parseComplexityArg_flag (n : Int) (prog : List Char) (pre post : List (List Char))
    (hpre : ∀ x ∈ pre, ¬ kPrefix <+: x) :
    parseComplexityArg (prog :: (pre ++ complexityFlag n :: post)) = n := by
  have ha : kPrefix <+: complexityFlag n := List.prefix_append kPrefix (decimal n)
  have hdrop : (complexityFlag n).drop kPrefix.length = decimal n := List.drop_left _ _
  simp only [parseComplexityArg, List.drop_succ_cons, List.drop_zero]
  rw [parseComplexityLoop_first pre _ post hpre ha, hdrop, atoi_decimal]

/-- C11, counterexample. Started with the single argument `--complexity=-5`, the layer has
complexity 8 and 9000 elements, while `clamp(-5, 0, 24)` is 0 and its element count is 1000. -/
theorem negative_flag_keeps_default :
    parseComplexityArg ["motionmark".toList, "--complexity=-5".toList] = -5 ∧
    (createdLayer ["motionmark".toList, "--complexity=-5".toList] (some sampleWindow)
      zeroRng).map (fun layer => layer.fComplexity) = some 8 ∧
    (createdLayer ["motionmark".toList, "--complexity=-5".toList] (some sampleWindow)
      zeroRng).map (fun layer => layer.fElements.length) = some 9000 ∧
    clamp (-5) 0 24 = 0 ∧ computeElementCount (clamp (-5) 0 24) = 1000 := by
  have hp : parseComplexityArg ["motionmark".toList, "--complexity=-5".toList] = -5 := by
    decide
  refine ⟨hp, ?_, ?_, by decide, by decide⟩
  · rw [createdLayer_attached _ _ _ rfl, hp, if_neg (by decide), Option.map_some',
      onResize_complexity, construct_complexity]
  · rw [createdLayer_attached _ _ _ rfl, hp, if_neg (by decide), Option.map_some',
      onResize_elements, construct_length]

/-- C11, amended. For every integer `n >= 0` of the `int` range, also `n > 24`, supplied at
start-up as the first argument of the form `--complexity=n`, the layer's complexity after
`init` is `clamp(n, 0, 24)` and its element count is `computeElementCount(clamp(n, 0, 24))`.
A negative `n` is not clamped: `init` treats it like an absent flag and the layer keeps the
default complexity 8 with 9000 elements. -/
theorem startup_complexity (n : Int) (prog : List Char) (pre post : List (List Char))
    (w : Window) (rng : Rng) (hlo : -2 ^ 31 ≤ n) (hhi : n < 2 ^ 31) (hw : w.attaches = true)
    (hpre : ∀ x ∈ pre, ¬ kPrefix <+: x) :
    parseComplexityArg (prog :: (pre ++ complexityFlag n :: post)) = n ∧
    ∃ layer : MotionMarkLayer,
      createdLayer (prog :: (pre ++ complexityFlag n :: post)) (some w) rng = some layer ∧
      (0 ≤ n → layer.fComplexity = clamp n 0 24 ∧
        (layer.fElements.length : Int) = computeElementCount (clamp n 0 24)) ∧
      (n < 0 → layer.fComplexity = 8 ∧ layer.fElements.length = 9000) := by
  have hp := parseComplexityArg_flag n prog pre post hpre
  refine ⟨hp, _, createdLayer_attached _ w rng hw, ?_, ?_⟩
  · intro h0
    rw [onResize_complexity, onResize_elements, hp, if_pos (ge_iff_le.2 h0)]
    exact ⟨setComplexity_complexity _ n, setComplexity_length _ n (inv_construct rng)⟩
  · intro hneg
    rw [onResize_complexity, onResize_elements, hp, if_neg (by omega), construct_complexity,
      construct_length]
    exact ⟨rfl, rfl⟩

theorem startup_complexity_witness :
    (-2 ^ 31 : Int) ≤ 30 ∧ (30 : Int) < 2 ^ 31 ∧ sampleWindow.attaches = true ∧
    parseComplexityArg ("motionmark".toList :: ([] ++ complexityFlag 30 :: [])) = 30 :=
  ⟨by decide, by decide, rfl,
   (startup_complexity 30 "motionmark".toList [] [] sampleWindow zeroRng (by decide)
     (by decide) rfl (fun x hx => absurd hx (List.not_mem_nil x))).1⟩

/-- C13. When no command-line argument begins with `--complexity=`, `parseComplexityArg`
returns -1 and the layer that `init` installs is the constructed one, only resized: no
`setComplexity` is applied, the complexity is the default 8 and the buffer holds exactly 9000
elements.  When several arguments carry the prefix, the first one decides. -/
theorem absent_flag_default (argv : List (List Char)) (w : Window) (rng : Rng)
    (hw : w.attaches = true) (hno : ∀ x ∈ argv.drop 1, ¬ kPrefix <+: x) :
    parseComplexityArg argv = -1 ∧
    createdLayer argv (some w) rng = some (onResize (construct rng) w.width w.height) ∧
    (onResize (construct rng) w.width w.height).fComplexity = 8 ∧
    (onResize (construct rng) w.width w.height).fElements.length = 9000 ∧
    (∀ (prog : List Char) (pre : List (List Char)) (a : List Char) (post : List (List Char)),
      (∀ x ∈ pre, ¬ kPrefix <+: x) → kPrefix <+: a →
      parseComplexityArg (prog :: (pre ++ a :: post)) = atoi (a.drop kPrefix.length)) := by
  have hp : parseComplexityArg argv = -1 := parseComplexityLoop_none _ hno
  refine ⟨hp, ?_, by rw [onResize_complexity, construct_complexity],
    by rw [onResize_elements, construct_length], ?_⟩
  · rw [createdLayer_attached argv w rng hw, hp, if_neg (by decide)]
  · intro prog pre a post hpre ha
    simp only [parseComplexityArg, List.drop_succ_cons, List.drop_zero]
    exact parseComplexityLoop_first pre a post hpre ha

theorem absent_flag_default_witness :
    sampleWindow.attaches = true ∧
    parseComplexityArg ["motionmark".toList, "--verbose".toList] = -1 ∧
    (createdLayer ["motionmark".toList, "--verbose".toList] (some sampleWindow)
      zeroRng).map (fun layer => layer.fElements.length) = some 9000 :=
  ⟨rfl,
   (absent_flag_default ["motionmark".toList, "--verbose".toList] sampleWindow zeroRng rfl
     (by decide)).1,
   by rw [(absent_flag_default ["motionmark".toList, "--verbose".toList] sampleWindow zeroRng
        rfl (by decide)).2.1, Option.map_some', onResize_elements, construct_length]⟩

/-! ## Idle ticks and the reported frame rate -/

theorem clampTime_range (v : ℚ) :
    1 / 240 ≤ clampTime v (1 / 240) (1 / 4) ∧ clampTime v (1 / 240) (1 / 4) ≤ 1 / 4 := by
  unfold clampTime
  split_ifs with h1 h2
  · norm_num
  · norm_num
  · exact ⟨not_lt.1 h1, not_lt.1 h2⟩

theorem init_idle_fields (app : MotionMarkApplication) (rng : Rng) :
    (init app rng).1.fAccumulatedTime = app.fAccumulatedTime ∧
      (init app rng).1.fFrameCounter = app.fFrameCounter := by
  unfold init
  split
  · exact ⟨rfl, rfl⟩
  · split_ifs <;> exact ⟨rfl, rfl⟩

theorem idleInv_onIdle (app : MotionMarkApplication) (elapsed : ℚ) (h : IdleInv app) :
    IdleInv (onIdle app elapsed).1 := by
  obtain ⟨hlo, hhi⟩ := clampTime_range elapsed
  unfold onIdle
  simp only
  split_ifs
  · exact ⟨le_refl _, by norm_num, by norm_num⟩
  · refine ⟨by have := h.counter_nonneg; show 0 ≤ app.fFrameCounter + 1; omega, ?_, ?_⟩
    · show ((app.fFrameCounter + 1 : Int) : ℚ) * (1 / 240) ≤ _
      have := h.acc_lo
      push_cast
      linarith
    · show _ ≤ ((app.fFrameCounter + 1 : Int) : ℚ) * (1 / 4)
      have := h.acc_hi
      push_cast
      linarith

theorem AppReachable.idleInv {app : MotionMarkApplication} (h : AppReachable app) :
    IdleInv app := by
  induction h with
  | construct window complexityArg =>
    exact ⟨le_refl _, by simp [constructApplication], by simp [constructApplication]⟩
  | init app rng _ ih =>
    obtain ⟨h1, h2⟩ := init_idle_fields app rng
    exact ⟨by rw [h2]; exact ih.counter_nonneg, by rw [h1, h2]; exact ih.acc_lo,
      by rw [h1, h2]; exact ih.acc_hi⟩
  | onIdle app elapsed _ ih => exact idleInv_onIdle app elapsed ih

theorem clampTime_quarter : clampTime (1 / 4) (1 / 240) (1 / 4) = 1 / 4 := by
  norm_num [clampTime]

theorem tickedApplication_eq :
    tickedApplication =
      { fWindow := some sampleWindow,
        fLayer := some (onResize (construct zeroRng) 800 600),
        fAccumulatedTime := 1 / 4,
        fFrameCounter := 1,
        fRequestedComplexity := -1 } := by
  have hinit : (init (constructApplication (some sampleWindow) (-1)) zeroRng).1 =
      { fWindow := some sampleWindow,
        fLayer := some (onResize (construct zeroRng) 800 600),
        fRequestedComplexity := -1 } := by
    simp [init, constructApplication, sampleWindow]
  have hno : ¬ ((0 : ℚ) + 1 / 4 ≥ 1 / 2 ∧
      (some (onResize (construct zeroRng) 800 600)).isSome = true) := by
    intro h
    have := h.1
    norm_num at this
  unfold tickedApplication
  rw [hinit]
  simp only [onIdle, clampTime_quarter, if_neg hno]
  norm_num

theorem tickedApplication_publishes : (onIdle tickedApplication (1 / 4)).2 = some 4 := by
  have hyes : ((1 : ℚ) / 4 + 1 / 4 ≥ 1 / 2 ∧
      (some (onResize (construct zeroRng) 800 600)).isSome = true) :=
    ⟨by norm_num, rfl⟩
  rw [tickedApplication_eq]
  simp only [onIdle, clampTime_quarter, if_pos hyes]
  norm_num

/-- C20. The reported FPS is bounded by the delta-time clamp: in every application state
reached by idle ticks with arbitrary elapsed times, whenever `onIdle` publishes a title the
value `fps = frameCounter / accumulatedTime`, each per-tick `dt` being clamped to
`[1/240, 1/4]`, satisfies `4 <= fps <= 240`. -/
theorem fps_bounded (app : MotionMarkApplication) (elapsed fps : ℚ) (h : AppReachable app)
    (hp : (onIdle app elapsed).2 = some fps) :
    fps = ((app.fFrameCounter + 1 : Int) : ℚ) /
        (app.fAccumulatedTime + clampTime elapsed (1 / 240) (1 / 4)) ∧
    1 / 240 ≤ clampTime elapsed (1 / 240) (1 / 4) ∧
    clampTime elapsed (1 / 240) (1 / 4) ≤ 1 / 4 ∧
    4 ≤ fps ∧ fps ≤ 240 := by
  have hi := h.idleInv
  obtain ⟨hlo, hhi⟩ := clampTime_range elapsed
  have hacc_lo := hi.acc_lo
  have hacc_hi := hi.acc_hi
  unfold onIdle at hp
  simp only at hp
  split_ifs at hp with hc
  · have hfps : fps = ((app.fFrameCounter + 1 : Int) : ℚ) /
        (app.fAccumulatedTime + clampTime elapsed (1 / 240) (1 / 4)) :=
      (Option.some.inj hp).symm
    have hpos : 0 < app.fAccumulatedTime + clampTime elapsed (1 / 240) (1 / 4) := by
      have := hc.1
      linarith
    refine ⟨hfps, hlo, hhi, ?_, ?_⟩
    · rw [hfps, le_div_iff₀ hpos]
      push_cast
      linarith
    · rw [hfps, div_le_iff₀ hpos]
      push_cast
      linarith

theorem fps_bounded_witness :
    AppReachable tickedApplication ∧ (onIdle tickedApplication (1 / 4)).2 = some 4 ∧
    (4 : ℚ) ≤ 4 ∧ (4 : ℚ) ≤ 240 :=
  ⟨AppReachable.onIdle _ _ (AppReachable.init _ _ (AppReachable.construct _ _)),
   tickedApplication_publishes,
   (fps_bounded tickedApplication (1 / 4) 4
     (AppReachable.onIdle _ _ (AppReachable.init _ _ (AppReachable.construct _ _)))
     tickedApplication_publishes).2.2.2.1,
   (fps_bounded tickedApplication (1 / 4) 4
     (AppReachable.onIdle _ _ (AppReachable.init _ _ (AppReachable.construct _ _)))
     tickedApplication_publishes).2.2.2.2⟩

end MotionMark
